import Mathlib

/-!
Verification of the protoc-gen-go-mcp core: the Union Flattener
(`transformOneOfFieldsRecursive` in pkg/generator/oneof_transform_test.go,
a verbatim copy of the generated runtime function) and the Schema
Compiler / required-field policy (whose implementations are exercised by
the tests in pkg/generator; where the implementation itself is not in the
repository snapshot, definitions are modelled from the spec and
constrained by the test assertions).

The generic JSON value model: Go's decoded `interface{}` is one of
`map[string]interface{}`, `[]interface{}`, `string`, `float64`, `bool`,
`nil`.  Mappings are modelled as association lists (Go maps have unique
keys; where key uniqueness matters it appears as an explicit `wf`
hypothesis).  Numbers are modelled abstractly by an integer payload: no
claim under consideration depends on numeric arithmetic.
-/

inductive JSONValue where
  | obj  : List (String × JSONValue) → JSONValue
  | arr  : List JSONValue → JSONValue
  | str  : String → JSONValue
  | num  : Int → JSONValue
  | bool : Bool → JSONValue
  | null : JSONValue

abbrev Entries := List (String × JSONValue)

mutual

def beqV : JSONValue → JSONValue → Bool
  | .obj m, .obj m2 => beqE m m2
  | .arr l, .arr l2 => beqL l l2
  | .str s, .str s2 => s = s2
  | .num n, .num n2 => n = n2
  | .bool b, .bool b2 => b = b2
  | .null, .null => true
  | _, _ => false

def beqE : Entries → Entries → Bool
  | [], [] => true
  | (k, v) :: r, (k2, v2) :: r2 => k = k2 && beqV v v2 && beqE r r2
  | _, _ => false

def beqL : List JSONValue → List JSONValue → Bool
  | [], [] => true
  | v :: r, v2 :: r2 => beqV v v2 && beqL r r2
  | _, _ => false

end

mutual

theorem beqV_sound : ∀ a b, beqV a b = true → a = b
  | .obj m, .obj m2, h => by rw [beqE_sound m m2 (by simpa [beqV] using h)]
  | .arr l, .arr l2, h => by rw [beqL_sound l l2 (by simpa [beqV] using h)]
  | .str s, .str s2, h => by simp [beqV] at h; rw [h]
  | .num n, .num n2, h => by simp [beqV] at h; rw [h]
  | .bool b, .bool b2, h => by simp [beqV] at h; rw [h]
  | .null, .null, _ => rfl
  | .obj _, .arr _, h => by simp [beqV] at h
  | .obj _, .str _, h => by simp [beqV] at h
  | .obj _, .num _, h => by simp [beqV] at h
  | .obj _, .bool _, h => by simp [beqV] at h
  | .obj _, .null, h => by simp [beqV] at h
  | .arr _, .obj _, h => by simp [beqV] at h
  | .arr _, .str _, h => by simp [beqV] at h
  | .arr _, .num _, h => by simp [beqV] at h
  | .arr _, .bool _, h => by simp [beqV] at h
  | .arr _, .null, h => by simp [beqV] at h
  | .str _, .obj _, h => by simp [beqV] at h
  | .str _, .arr _, h => by simp [beqV] at h
  | .str _, .num _, h => by simp [beqV] at h
  | .str _, .bool _, h => by simp [beqV] at h
  | .str _, .null, h => by simp [beqV] at h
  | .num _, .obj _, h => by simp [beqV] at h
  | .num _, .arr _, h => by simp [beqV] at h
  | .num _, .str _, h => by simp [beqV] at h
  | .num _, .bool _, h => by simp [beqV] at h
  | .num _, .null, h => by simp [beqV] at h
  | .bool _, .obj _, h => by simp [beqV] at h
  | .bool _, .arr _, h => by simp [beqV] at h
  | .bool _, .str _, h => by simp [beqV] at h
  | .bool _, .num _, h => by simp [beqV] at h
  | .bool _, .null, h => by simp [beqV] at h
  | .null, .obj _, h => by simp [beqV] at h
  | .null, .arr _, h => by simp [beqV] at h
  | .null, .str _, h => by simp [beqV] at h
  | .null, .num _, h => by simp [beqV] at h
  | .null, .bool _, h => by simp [beqV] at h

theorem beqE_sound : ∀ a b, beqE a b = true → a = b
  | [], [], _ => rfl
  | (k, v) :: r, (k2, v2) :: r2, h => by
    simp only [beqE, Bool.and_eq_true, decide_eq_true_eq] at h
    rw [h.1.1, beqV_sound v v2 h.1.2, beqE_sound r r2 h.2]
  | [], _ :: _, h => by simp [beqE] at h
  | _ :: _, [], h => by simp [beqE] at h

theorem beqL_sound : ∀ a b, beqL a b = true → a = b
  | [], [], _ => rfl
  | v :: r, v2 :: r2, h => by
    simp only [beqL, Bool.and_eq_true] at h
    rw [beqV_sound v v2 h.1, beqL_sound r r2 h.2]
  | [], _ :: _, h => by simp [beqL] at h
  | _ :: _, [], h => by simp [beqL] at h

end

mutual

theorem beqV_refl : ∀ a, beqV a a = true
  | .obj m => by simpa [beqV] using beqE_refl m
  | .arr l => by simpa [beqV] using beqL_refl l
  | .str _ => by simp [beqV]
  | .num _ => by simp [beqV]
  | .bool _ => by simp [beqV]
  | .null => rfl

theorem beqE_refl : ∀ a, beqE a a = true
  | [] => rfl
  | (k, v) :: r => by
    simp [beqE, beqV_refl v, beqE_refl r]

theorem beqL_refl : ∀ a, beqL a a = true
  | [] => rfl
  | v :: r => by
    simp [beqL, beqV_refl v, beqL_refl r]

end

instance : DecidableEq JSONValue := fun a b =>
  if h : beqV a b = true then isTrue (beqV_sound a b h)
  else isFalse (fun he => h (he ▸ beqV_refl a))

-- Size measure used for termination of the flattener.
mutual

def sz : JSONValue → Nat
  | .obj m => 1 + szE m
  | .arr l => 1 + szL l
  | _ => 1

def szE : Entries → Nat
  | [] => 0
  | (_, v) :: rest => 1 + sz v + szE rest

def szL : List JSONValue → Nat
  | [] => 0
  | v :: rest => 1 + sz v + szL rest

end

/-- Go `m[k]` read on a string-keyed map, modelled on the association list
(first matching key wins; on unique-key lists this is exact). -/
def getVal : Entries → String → Option JSONValue
  | [], _ => none
  | (k, v) :: rest, q => if k = q then some v else getVal rest q

/-- Go `m[k] = v` map write: replaces the value of an existing key in
place, otherwise appends a fresh entry. -/
def setKey (q : String) (x : JSONValue) : Entries → Entries
  | [] => [(q, x)]
  | (k, v) :: rest => if k = q then (q, x) :: rest else (k, v) :: setKey q x rest

/-- Go `delete(m, k)`: removes the entry (all entries, on lists with
duplicate keys) named `k`. -/
def eraseKey (q : String) (m : Entries) : Entries :=
  m.filter (fun e => e.1 ≠ q)

/-- Go `strings.HasSuffix s t`, modelled on the character lists. -/
def hasSuffix (s t : String) : Bool :=
  t.data.isSuffixOf s.data

/-- One iteration of the first `range` loop of
`transformOneOfFieldsRecursive`, processing key `k` against the current
state of the mapping: if `k` ends in "OneOfType" and its value is a
mapping with a string discriminator `t` under "object_type", the wrapper
is replaced — `v[t] = x; delete(v, k)` — where `x` is the wrapper's
value at `t` when that key exists, and otherwise the wrapper stripped of
"object_type". -/
def processKey (k : String) (m : Entries) : Entries :=
  if hasSuffix k "OneOfType" then
    match getVal m k with
    | some (.obj w) =>
      match getVal w "object_type" with
      | some (.str t) =>
        match getVal w t with
        | some p => eraseKey k (setKey t p m)
        | none => eraseKey k (setKey t (.obj (eraseKey "object_type" w)) m)
      | _ => m
    | _ => m
  else m

/-- The first `range` loop: process the listed keys in order against the
evolving mapping.  Go's map iteration order is unspecified, and entries
created during the iteration may or may not be produced by it, so the
visit schedule is an explicit parameter: an arbitrary key list.
Processing a key that is absent from the current mapping is a no-op, so
every Go execution of the loop is realised by some schedule listing all
initially-present keys in the produced order, with any created entries
the loop went on to produce listed at their production points. -/
def runKeys (ks : List String) (m : Entries) : Entries :=
  ks.foldl (fun acc k => processKey k acc) m

theorem szE_of_mem {m : Entries} {k : String} {v : JSONValue}
    (h : (k, v) ∈ m) : sz v < 1 + szE m := by
  induction m with
  | nil => cases h
  | cons e rest ih =>
    rcases List.mem_cons.mp h with h | h
    · cases e with
      | mk k' v' =>
        have hv : v' = v := congrArg Prod.snd h.symm
        subst hv
        simp [szE]; omega
    · have := ih h
      cases e with
      | mk k' v' => simp [szE] at *; omega

theorem szL_of_mem {l : List JSONValue} {v : JSONValue}
    (h : v ∈ l) : sz v < 1 + szL l := by
  induction l with
  | nil => cases h
  | cons x rest ih =>
    rcases List.mem_cons.mp h with h | h
    · subst h; simp [szL]; omega
    · have := ih h
      simp [szL] at *; omega

theorem getVal_mem {m : Entries} {q : String} {v : JSONValue}
    (h : getVal m q = some v) : (q, v) ∈ m := by
  induction m with
  | nil => simp [getVal] at h
  | cons e rest ih =>
    cases e with
    | mk k v' =>
      by_cases hk : k = q
      · subst hk
        simp [getVal] at h
        subst h; exact List.mem_cons_self _ _
      · simp [getVal, hk] at h
        exact List.mem_cons_of_mem _ (ih h)

theorem getVal_sz {w : Entries} {q : String} {p : JSONValue}
    (h : getVal w q = some p) : sz p < 1 + szE w :=
  szE_of_mem (getVal_mem h)

theorem setKey_mem {m : Entries} {q : String} {x : JSONValue}
    {e : String × JSONValue} (h : e ∈ setKey q x m) :
    e ∈ m ∨ e = (q, x) := by
  induction m with
  | nil => simp [setKey] at h; right; exact h
  | cons f rest ih =>
    cases f with
    | mk k v =>
      by_cases hk : k = q
      · subst hk
        simp [setKey] at h
        rcases h with h | h
        · right; simp [h]
        · left; exact List.mem_cons_of_mem _ h
      · simp [setKey, hk] at h
        rcases h with h | h
        · left; simp [h]
        · rcases ih h with h | h
          · left; exact List.mem_cons_of_mem _ h
          · right; exact h

theorem eraseKey_mem {m : Entries} {q : String}
    {e : String × JSONValue} (h : e ∈ eraseKey q m) : e ∈ m :=
  List.mem_of_mem_filter h

theorem szE_eraseKey (q : String) (w : Entries) :
    szE (eraseKey q w) ≤ szE w := by
  induction w with
  | nil => simp [eraseKey, szE]
  | cons f rest ih =>
    cases f with
    | mk k v =>
      by_cases hk : k = q
      · simp [eraseKey, hk, szE] at *; omega
      · simp [eraseKey, hk, szE] at *; omega

/-- Shape of a single loop-iteration: either nothing fires and the
mapping is unchanged, or the wrapper at `k` is replaced by a promoted
value `x` that is no larger than the wrapper itself. -/
theorem processKey_cases (k : String) (m : Entries) :
    processKey k m = m ∨
    ∃ w t x, hasSuffix k "OneOfType" = true ∧
      getVal m k = some (.obj w) ∧
      getVal w "object_type" = some (.str t) ∧
      sz x ≤ sz (JSONValue.obj w) ∧
      processKey k m = eraseKey k (setKey t x m) := by
  unfold processKey
  split
  next hsuf =>
    split
    next w heq =>
      split
      next t heq2 =>
        split
        next p heq3 =>
          right
          refine ⟨w, t, p, hsuf, heq, heq2, ?_, rfl⟩
          have := getVal_sz heq3
          simp [sz]; omega
        next heq3 =>
          right
          refine ⟨w, t, .obj (eraseKey "object_type" w), hsuf, heq, heq2, ?_, rfl⟩
          have := szE_eraseKey "object_type" w
          simp [sz]; omega
      next => left; rfl
    next => left; rfl
  next hsuf => left; rfl

theorem processKey_sz_bound {k : String} {m : Entries}
    {e : String × JSONValue} (h : e ∈ processKey k m) :
    ∃ f ∈ m, sz e.2 ≤ sz f.2 := by
  rcases processKey_cases k m with hc | ⟨w, t, x, _, hw, _, hx, hc⟩
  · rw [hc] at h; exact ⟨e, h, le_refl _⟩
  · rw [hc] at h
    rcases setKey_mem (eraseKey_mem h) with h2 | h2
    · exact ⟨e, h2, le_refl _⟩
    · refine ⟨(k, .obj w), getVal_mem hw, ?_⟩
      have hv : e.2 = x := congrArg Prod.snd h2
      rw [hv]; exact hx

theorem runKeys_sz_bound {ks : List String} {m : Entries}
    {e : String × JSONValue} (h : e ∈ runKeys ks m) :
    ∃ f ∈ m, sz e.2 ≤ sz f.2 := by
  induction ks generalizing m with
  | nil => exact ⟨e, h, le_refl _⟩
  | cons k rest ih =>
    have h1 : e ∈ runKeys rest (processKey k m) := h
    rcases ih h1 with ⟨f, hf, hle⟩
    rcases processKey_sz_bound hf with ⟨g, hg, hle2⟩
    exact ⟨g, hg, le_trans hle hle2⟩

theorem runKeys_sz_lt {ks : List String} {m : Entries}
    {e : String × JSONValue} (h : e ∈ runKeys ks m) :
    sz e.2 < sz (JSONValue.obj m) := by
  rcases runKeys_sz_bound h with ⟨f, hf, hle⟩
  have h2 : sz f.2 < 1 + szE m := by
    cases f with
    | mk k v => exact szE_of_mem hf
  simp [sz]; omega

/-- `transformOneOfFieldsRecursive`, parameterised by the map-iteration
schedule `pick` (which keys the first loop visits, in which order, given
the mapping's entries at loop start; a schedule covering the keys
present at loop start may additionally list entries the loop creates).
For each mapping: the first loop performs the oneOf substitutions
(`runKeys`), the second loop recurses into every value; array elements
are processed elementwise; scalars are untouched. -/
def transformWith (pick : Entries → List String) : JSONValue → JSONValue
  | .obj m =>
    let m1 := runKeys (pick m) m
    .obj (m1.attach.map (fun e => (e.1.1, transformWith pick e.1.2)))
  | .arr l => .arr (l.attach.map (fun x => transformWith pick x.1))
  | .str s => .str s
  | .num n => .num n
  | .bool b => .bool b
  | .null => .null
termination_by v => sz v
decreasing_by
  · exact runKeys_sz_lt e.2
  · have := szL_of_mem x.2
    simp [sz]; omega

/-- The canonical map-iteration schedule: visit exactly the keys present
at loop start, in entry order. -/
def keysOf (m : Entries) : List String :=
  m.map Prod.fst

/-- The Union Flattener (`transformOneOfFieldsRecursive`) with the
canonical schedule. -/
def transformOneOf : JSONValue → JSONValue :=
  transformWith keysOf

theorem transformWith_obj (pick : Entries → List String) (m : Entries) :
    transformWith pick (.obj m) =
      .obj ((runKeys (pick m) m).map (fun e => (e.1, transformWith pick e.2))) := by
  rw [transformWith]
  simp [List.map_attach]

theorem transformWith_arr (pick : Entries → List String) (l : List JSONValue) :
    transformWith pick (.arr l) = .arr (l.map (transformWith pick)) := by
  rw [transformWith]
  simp [List.map_attach]

theorem transformWith_str (pick : Entries → List String) (s : String) :
    transformWith pick (.str s) = .str s := by rw [transformWith]

theorem transformWith_num (pick : Entries → List String) (n : Int) :
    transformWith pick (.num n) = .num n := by rw [transformWith]

theorem transformWith_bool (pick : Entries → List String) (b : Bool) :
    transformWith pick (.bool b) = .bool b := by rw [transformWith]

theorem transformWith_null (pick : Entries → List String) :
    transformWith pick .null = .null := by rw [transformWith]

/-- Fuel-indexed evaluator for the flattener, agreeing with
`transformWith` whenever the fuel bounds the input's size; it exists so
that concrete runs reduce inside the kernel. -/
def transformFuel (pick : Entries → List String) : Nat → JSONValue → JSONValue
  | 0, v => v
  | n + 1, .obj m => .obj ((runKeys (pick m) m).map (fun e => (e.1, transformFuel pick n e.2)))
  | n + 1, .arr l => .arr (l.map (transformFuel pick n))
  | _ + 1, .str s => .str s
  | _ + 1, .num n => .num n
  | _ + 1, .bool b => .bool b
  | _ + 1, .null => .null

theorem transformWith_eq_fuel (pick : Entries → List String) :
    ∀ n v, sz v ≤ n → transformWith pick v = transformFuel pick n v := by
  intro n
  induction n with
  | zero =>
    intro v hv
    cases v with
    | obj m => simp [sz] at hv
    | arr l => simp [sz] at hv
    | str s => simp [sz] at hv
    | num x => simp [sz] at hv
    | bool b => simp [sz] at hv
    | null => simp [sz] at hv
  | succ n ih =>
    intro v hv
    cases v with
    | obj m =>
      rw [transformWith_obj, transformFuel]
      congr 1
      apply List.map_congr_left
      intro e he
      have hlt : sz e.2 < sz (JSONValue.obj m) := runKeys_sz_lt he
      have : sz e.2 ≤ n := by simp [sz] at hv hlt ⊢; omega
      rw [ih e.2 this]
    | arr l =>
      rw [transformWith_arr, transformFuel]
      congr 1
      apply List.map_congr_left
      intro x hx
      have hlt := szL_of_mem hx
      have : sz x ≤ n := by simp [sz] at hv hlt ⊢; omega
      exact ih x this
    | str s => rw [transformWith_str, transformFuel]
    | num x => rw [transformWith_num, transformFuel]
    | bool b => rw [transformWith_bool, transformFuel]
    | null => rw [transformWith_null, transformFuel]

/-- Evaluation bridge for concrete inputs. -/
theorem transformOneOf_eval (n : Nat) (v : JSONValue) (h : sz v ≤ n) :
    transformOneOf v = transformFuel keysOf n v :=
  transformWith_eq_fuel keysOf n v h

example :
    transformOneOf (.obj [("kOneOfType", .obj
      [("object_type", .str "s"), ("value", .str "hi")])]) =
    .obj [("s", .obj [("value", .str "hi")])] := by
  rw [transformOneOf_eval 10 _ (by decide)]
  decide

theorem getVal_setKey_self (q : String) (x : JSONValue) (m : Entries) :
    getVal (setKey q x m) q = some x := by
  induction m with
  | nil => simp [setKey, getVal]
  | cons e rest ih =>
    cases e with
    | mk k v =>
      by_cases hk : k = q
      · simp [setKey, hk, getVal]
      · simp [setKey, hk, getVal, ih]

theorem eraseKey_cons_self {k q : String} {v : JSONValue} {rest : Entries}
    (h : k = q) : eraseKey q ((k, v) :: rest) = eraseKey q rest := by
  simp [eraseKey, h]

theorem eraseKey_cons_ne {k q : String} {v : JSONValue} {rest : Entries}
    (h : k ≠ q) : eraseKey q ((k, v) :: rest) = (k, v) :: eraseKey q rest := by
  simp [eraseKey, h]

theorem getVal_setKey_other {q k : String} (hne : k ≠ q) (x : JSONValue) (m : Entries) :
    getVal (setKey q x m) k = getVal m k := by
  have hqk : ¬ q = k := fun h => hne h.symm
  induction m with
  | nil => simp [setKey, getVal, hqk]
  | cons e rest ih =>
    cases e with
    | mk k2 v =>
      by_cases hk : k2 = q
      · subst hk
        simp [setKey, getVal, hqk]
      · simp [setKey, hk, getVal, ih]

theorem getVal_eraseKey_self (q : String) (m : Entries) :
    getVal (eraseKey q m) q = none := by
  induction m with
  | nil => rfl
  | cons e rest ih =>
    cases e with
    | mk k v =>
      by_cases hk : k = q
      · rw [eraseKey_cons_self hk]; exact ih
      · rw [eraseKey_cons_ne hk]
        simpa [getVal, hk] using ih

theorem getVal_eraseKey_other {q k : String} (hne : k ≠ q) (m : Entries) :
    getVal (eraseKey q m) k = getVal m k := by
  induction m with
  | nil => rfl
  | cons e rest ih =>
    cases e with
    | mk k2 v =>
      by_cases hk : k2 = q
      · subst hk
        rw [eraseKey_cons_self rfl]
        have h2 : ¬ k2 = k := fun h => hne h.symm
        simpa [getVal, h2] using ih
      · rw [eraseKey_cons_ne hk]
        simp [getVal, ih]

/-- Reduction of the loop body when the wrapper fires with a
message-typed variant: the wrapper's own `t` entry is the payload. -/
theorem processKey_fire_payload {m w : Entries} {k t : String} {p : JSONValue}
    (hsuf : hasSuffix k "OneOfType" = true)
    (hk : getVal m k = some (.obj w))
    (hot : getVal w "object_type" = some (.str t))
    (hp : getVal w t = some p) :
    processKey k m = eraseKey k (setKey t p m) := by
  simp [processKey, hsuf, hk, hot, hp]

/-- Reduction of the loop body when the wrapper fires with no entry
matching the discriminator: the promoted value is the wrapper stripped
of "object_type". -/
theorem processKey_fire_strip {m w : Entries} {k t : String}
    (hsuf : hasSuffix k "OneOfType" = true)
    (hk : getVal m k = some (.obj w))
    (hot : getVal w "object_type" = some (.str t))
    (hp : getVal w t = none) :
    processKey k m = eraseKey k (setKey t (.obj (eraseKey "object_type" w)) m) := by
  simp [processKey, hsuf, hk, hot, hp]

/-- Input of the spec's message-variant scenario. -/
def c1ExampleMap : Entries :=
  [("kindOneOfType", .obj [("object_type", .str "opt_a"),
                           ("opt_a", .obj [("value", .str "x")])])]

/-- C1 (amended): for every mapping and every key `k` ending in
"OneOfType" whose value is a mapping with string discriminator `t` under
"object_type" and an entry at `t`, provided the discriminator `t`
differs from the wrapper key `k` itself, the Union Flattener's
substitution deletes `k` and stores the wrapper's value at `t` into the
parent mapping, leaving all other keys unchanged.  (When `t = k` the
write `v[t] = payload` is immediately undone by `delete(v, k)`, so
nothing is stored — see the counterexample.) -/
theorem c1_message_variant (m w : Entries) (k t : String) (p : JSONValue)
    (hsuf : hasSuffix k "OneOfType" = true)
    (hk : getVal m k = some (.obj w))
    (hot : getVal w "object_type" = some (.str t))
    (hp : getVal w t = some p)
    (htk : t ≠ k) :
    getVal (processKey k m) k = none ∧
    getVal (processKey k m) t = some p ∧
    ∀ q, q ≠ k → q ≠ t → getVal (processKey k m) q = getVal m q := by
  rw [processKey_fire_payload hsuf hk hot hp]
  refine ⟨getVal_eraseKey_self k _, ?_, ?_⟩
  · rw [getVal_eraseKey_other htk, getVal_setKey_self]
  · intro q hqk hqt
    rw [getVal_eraseKey_other hqk, getVal_setKey_other hqt]

/-- C1 witness: the amended rule applied to the spec's concrete
message-variant scenario, plus the end-to-end flattening of that
scenario. -/
theorem c1_message_variant_witness :
    (getVal (processKey "kindOneOfType" c1ExampleMap) "kindOneOfType" = none ∧
     getVal (processKey "kindOneOfType" c1ExampleMap) "opt_a" =
       some (.obj [("value", .str "x")]) ∧
     ∀ q, q ≠ "kindOneOfType" → q ≠ "opt_a" →
       getVal (processKey "kindOneOfType" c1ExampleMap) q = getVal c1ExampleMap q) ∧
    transformOneOf (.obj c1ExampleMap) = .obj [("opt_a", .obj [("value", .str "x")])] :=
  ⟨c1_message_variant c1ExampleMap
     [("object_type", .str "opt_a"), ("opt_a", .obj [("value", .str "x")])]
     "kindOneOfType" "opt_a" (.obj [("value", .str "x")])
     (by decide) (by decide) (by decide) (by decide) (by decide),
   by rw [transformOneOf_eval 20 _ (by decide)]; decide⟩

/-- C1 counterexample: a wrapper whose discriminator equals the wrapper
key itself.  The code executes `v[t] = payload; delete(v, k)` with
`t = k`, so the deletion erases the just-stored payload: the result is
the empty mapping, not a mapping holding the payload at `t` — the claim
(delete `k` and store the payload at `t`) fails at this input. -/
theorem c1_counterexample :
    transformOneOf (.obj [("xOneOfType", .obj
      [("object_type", .str "xOneOfType"), ("xOneOfType", .str "v")])]) = .obj [] ∧
    getVal (processKey "xOneOfType"
      [("xOneOfType", .obj [("object_type", .str "xOneOfType"),
                            ("xOneOfType", .str "v")])]) "xOneOfType" ≠
      some (.str "v") := by
  constructor
  · rw [transformOneOf_eval 20 _ (by decide)]; decide
  · decide

/-- Input of the spec's primitive-variant scenario. -/
def c2ExampleMap : Entries :=
  [("kOneOfType", .obj [("object_type", .str "s"), ("value", .str "hi")])]

/-- C2 (amended): for every mapping and every key `k` ending in
"OneOfType" whose value `w` is a mapping with string discriminator `t`
under "object_type" but no entry at `t`, provided `t` differs from the
wrapper key `k` itself, the Union Flattener deletes `k` and stores at
`t` a new mapping holding every entry of `w` except "object_type",
leaving all other keys unchanged. -/
theorem c2_primitive_variant (m w : Entries) (k t : String)
    (hsuf : hasSuffix k "OneOfType" = true)
    (hk : getVal m k = some (.obj w))
    (hot : getVal w "object_type" = some (.str t))
    (hp : getVal w t = none)
    (htk : t ≠ k) :
    getVal (processKey k m) k = none ∧
    getVal (processKey k m) t = some (.obj (eraseKey "object_type" w)) ∧
    getVal (eraseKey "object_type" w) "object_type" = none ∧
    (∀ q, q ≠ "object_type" → getVal (eraseKey "object_type" w) q = getVal w q) ∧
    ∀ q, q ≠ k → q ≠ t → getVal (processKey k m) q = getVal m q := by
  rw [processKey_fire_strip hsuf hk hot hp]
  refine ⟨getVal_eraseKey_self k _, ?_, getVal_eraseKey_self "object_type" w, ?_, ?_⟩
  · rw [getVal_eraseKey_other htk, getVal_setKey_self]
  · intro q hq
    exact getVal_eraseKey_other hq w
  · intro q hqk hqt
    rw [getVal_eraseKey_other hqk, getVal_setKey_other hqt]

/-- C2 witness: the amended rule applied to the spec's concrete
primitive-variant scenario, plus the end-to-end flattening of that
scenario. -/
theorem c2_primitive_variant_witness :
    (getVal (processKey "kOneOfType" c2ExampleMap) "kOneOfType" = none ∧
     getVal (processKey "kOneOfType" c2ExampleMap) "s" =
       some (.obj [("value", .str "hi")]) ∧
     getVal (eraseKey "object_type"
       [("object_type", JSONValue.str "s"), ("value", .str "hi")]) "object_type" = none ∧
     (∀ q, q ≠ "object_type" →
       getVal (eraseKey "object_type"
         [("object_type", JSONValue.str "s"), ("value", .str "hi")]) q =
       getVal [("object_type", JSONValue.str "s"), ("value", .str "hi")] q) ∧
     ∀ q, q ≠ "kOneOfType" → q ≠ "s" →
       getVal (processKey "kOneOfType" c2ExampleMap) q = getVal c2ExampleMap q) ∧
    transformOneOf (.obj c2ExampleMap) = .obj [("s", .obj [("value", .str "hi")])] :=
  ⟨c2_primitive_variant c2ExampleMap
     [("object_type", .str "s"), ("value", .str "hi")] "kOneOfType" "s"
     (by decide) (by decide) (by decide) (by decide) (by decide),
   by rw [transformOneOf_eval 20 _ (by decide)]; decide⟩

/-- C2 counterexample: a primitive-variant wrapper whose discriminator
equals the wrapper key itself.  `v[t] = variant; delete(v, k)` with
`t = k` erases the just-stored variant mapping: the result is the empty
mapping, so nothing is stored under `t`, contrary to the claim. -/
theorem c2_counterexample :
    transformOneOf (.obj [("xOneOfType", .obj
      [("object_type", .str "xOneOfType"), ("value", .str "hi")])]) = .obj [] ∧
    getVal (processKey "xOneOfType"
      [("xOneOfType", .obj [("object_type", .str "xOneOfType"),
                            ("value", .str "hi")])]) "xOneOfType" ≠
      some (.obj [("value", .str "hi")]) := by
  constructor
  · rw [transformOneOf_eval 20 _ (by decide)]; decide
  · decide

/-- C9: a wrapper entry whose shape is malformed — the value is not a
mapping, or lacks an "object_type" key, or its "object_type" value is
not a string — is left untouched by the substitution loop: the mapping
is returned unchanged.  (The flattener as a whole is a total function of
type JSONValue to JSONValue — `transformWith` — so it never raises or
returns an error on any input; rejection is left to the downstream
decoder.) -/
theorem c9_malformed_untouched (m w : Entries) (k : String) (v : JSONValue)
    (hsuf : hasSuffix k "OneOfType" = true)
    (hk : getVal m k = some v)
    (hmal : (∀ u, v ≠ .obj u) ∨
            (v = .obj w ∧ getVal w "object_type" = none) ∨
            (∃ x, v = .obj w ∧ getVal w "object_type" = some x ∧ ∀ s, x ≠ .str s)) :
    processKey k m = m := by
  rcases hmal with hno | ⟨hvw, hot⟩ | ⟨x, hvw, hot, hxs⟩
  · cases v with
    | obj u => exact absurd rfl (hno u)
    | arr l => simp [processKey, hsuf, hk]
    | str s => simp [processKey, hsuf, hk]
    | num n => simp [processKey, hsuf, hk]
    | bool b => simp [processKey, hsuf, hk]
    | null => simp [processKey, hsuf, hk]
  · subst hvw
    simp [processKey, hsuf, hk, hot]
  · subst hvw
    cases x with
    | str s => exact absurd rfl (hxs s)
    | obj u => simp [processKey, hsuf, hk, hot]
    | arr l => simp [processKey, hsuf, hk, hot]
    | num n => simp [processKey, hsuf, hk, hot]
    | bool b => simp [processKey, hsuf, hk, hot]
    | null => simp [processKey, hsuf, hk, hot]

/-- C9 witness: the three malformed shapes on concrete inputs — no
"object_type" key, non-string "object_type", and a non-mapping wrapper
value — are each left untouched. -/
theorem c9_malformed_untouched_witness :
    processKey "aOneOfType" [("aOneOfType", .obj [("value", .str "hi")])] =
      [("aOneOfType", .obj [("value", .str "hi")])] ∧
    processKey "bOneOfType" [("bOneOfType", .obj [("object_type", .num 3)])] =
      [("bOneOfType", .obj [("object_type", .num 3)])] ∧
    processKey "cOneOfType" [("cOneOfType", .str "notAMap")] =
      [("cOneOfType", .str "notAMap")] :=
  ⟨c9_malformed_untouched [("aOneOfType", .obj [("value", .str "hi")])]
     [("value", .str "hi")] "aOneOfType" (.obj [("value", .str "hi")])
     (by decide) (by decide) (Or.inr (Or.inl ⟨rfl, by decide⟩)),
   c9_malformed_untouched [("bOneOfType", .obj [("object_type", .num 3)])]
     [("object_type", .num 3)] "bOneOfType" (.obj [("object_type", .num 3)])
     (by decide) (by decide)
     (Or.inr (Or.inr ⟨.num 3, rfl, by decide, fun s h => JSONValue.noConfusion h⟩)),
   c9_malformed_untouched [("cOneOfType", .str "notAMap")] [] "cOneOfType"
     (.str "notAMap") (by decide) (by decide)
     (Or.inl (fun u h => JSONValue.noConfusion h))⟩

/-- C10: the promotion can overwrite a pre-existing sibling: flattening
a mapping that holds both a plain entry at "t" and a wrapper whose
discriminator is "t" replaces the sibling's old value with the promoted
variant value, so it is not the case that every key other than the
wrapper key is left unchanged. -/
theorem c10_overwrites_sibling :
    transformOneOf (.obj [("t", .str "old"),
      ("kOneOfType", .obj [("object_type", .str "t"), ("t", .str "new")])]) =
      .obj [("t", .str "new")] ∧
    JSONValue.str "new" ≠ .str "old" := by
  constructor
  · rw [transformOneOf_eval 20 _ (by decide)]; decide
  · decide

/-- Protobuf descriptor kinds relevant to the per-field type derivation
(message-typed fields are handled by the definitions-table compiler
below and need no scalar kind here). -/
inductive Kind where
  | bool | string | bytes
  | int32 | sint32 | uint32 | sfixed32 | fixed32
  | int64 | sint64 | uint64 | sfixed64 | fixed64
  | float | double | enum
deriving DecidableEq

/-- Modelled from the spec: `kindToType` is not under src/; its behaviour
is fixed by the assertions of TestKindToType in
pkg/generator/generator_test.go (bool to "boolean", string and bytes to
"string", int32 to "integer", int64 to "string", float and double to
"number", enum to "string") and by the spec's table for the kinds the
test does not list (uint32 and the 32-bit fixed variants to "integer",
the remaining 64-bit variants to "string").  Note the test pins enum to
"string", overriding the spec's table row that puts enum with the
integers. -/
def kindToType : Kind → String
  | .bool => "boolean"
  | .string => "string"
  | .bytes => "string"
  | .int32 => "integer"
  | .sint32 => "integer"
  | .uint32 => "integer"
  | .sfixed32 => "integer"
  | .fixed32 => "integer"
  | .int64 => "string"
  | .sint64 => "string"
  | .uint64 => "string"
  | .sfixed64 => "string"
  | .fixed64 => "string"
  | .float => "number"
  | .double => "number"
  | .enum => "string"

/-- The slice of a protobuf FieldDescriptor that the required-field
policy and the scalar type derivation consult: name, kind, cardinality
(repeated / map), the explicit `optional` keyword, the explicit
required annotation, and (for enums) the declared value names. -/
structure FieldDescriptor where
  name : String
  kind : Kind
  isRepeated : Bool
  isMap : Bool
  hasOptionalKeyword : Bool
  annotRequired : Bool
  enumValues : List String

/-- Modelled from the spec: the description text attached to enum
fields, listing the legal enum value names. -/
def enumDescription (names : List String) : String :=
  "Possible values: " ++ String.intercalate ", " names

/-- Modelled from the spec: the scalar arm of `getType` — a schema with
the kind-derived "type", and for enums additionally a description
listing the legal names. -/
def scalarSchema (fd : FieldDescriptor) : Entries :=
  if fd.kind = .enum then
    [("type", .str (kindToType fd.kind)),
     ("description", .str (enumDescription fd.enumValues))]
  else
    [("type", .str (kindToType fd.kind))]

/-- Modelled from the spec: `getType` is not under src/.  Map fields
produce an object schema with additionalProperties and propertyNames
(their value/key schemas are outside the claims considered here and are
kept schematic), repeated fields an array schema whose items are the
element's scalar schema, and singular fields the scalar schema
directly. -/
def getType (fd : FieldDescriptor) : Entries :=
  if fd.isMap then
    [("type", .str "object"), ("additionalProperties", .obj []),
     ("propertyNames", .obj [("type", .str "string")])]
  else if fd.isRepeated then
    [("type", .str "array"), ("items", .obj (scalarSchema fd))]
  else
    scalarSchema fd

/-- Modelled from the spec (required-field policy, three inputs) and the
assertions of TestOptionalKeywordSupport in src/unnamed/part_000:
repeated and map fields are never required; an explicit required
annotation forces required; otherwise, with optional-keyword support
enabled, exactly the fields without the `optional` keyword are required,
and with it disabled nothing else is. -/
def isFieldRequiredWithOptionalSupport
    (optionalKeywordSupport : Bool) (fd : FieldDescriptor) : Bool :=
  if fd.isRepeated || fd.isMap then false
  else if fd.annotRequired then true
  else if optionalKeywordSupport then !fd.hasOptionalKeyword
  else false

/-- A oneof group of a message: compiled as one synthetic property named
`<name>OneOfType`; the group may itself be required. -/
structure OneofGroup where
  name : String
  isRequiredGroup : Bool

def oneofPropName (og : OneofGroup) : String :=
  og.name ++ "OneOfType"

/-- Modelled from the spec: the "required" list of a message schema —
the names of the fields satisfying the required-field policy, plus the
synthetic property name of every required oneof group. -/
def messageRequired (support : Bool) (fields : List FieldDescriptor)
    (oneofs : List OneofGroup) : List String :=
  (fields.filter (fun fd => isFieldRequiredWithOptionalSupport support fd)).map
      (fun fd => fd.name) ++
    (oneofs.filter (fun og => og.isRequiredGroup)).map oneofPropName

/-- C3: a repeated or map field is never required — for either value of
the optional-support flag and either value of the required annotation —
and consequently its name never appears in the "required" list of a
message schema (provided, as in any valid descriptor, that no other
field or synthetic oneof property shares its name while being
non-repeated and non-map). -/
theorem c3_repeated_map_never_required
    (fd : FieldDescriptor) (support : Bool)
    (hrm : fd.isRepeated = true ∨ fd.isMap = true) :
    isFieldRequiredWithOptionalSupport support fd = false ∧
    ∀ fields oneofs,
      (∀ g ∈ fields, g.name = fd.name → (g.isRepeated || g.isMap) = true) →
      (∀ og ∈ oneofs, oneofPropName og ≠ fd.name) →
      fd.name ∉ messageRequired support fields oneofs := by
  have hpol : ∀ g : FieldDescriptor, (g.isRepeated || g.isMap) = true →
      isFieldRequiredWithOptionalSupport support g = false := by
    intro g hg
    simp [isFieldRequiredWithOptionalSupport, hg]
  constructor
  · apply hpol
    rcases hrm with h | h <;> simp [h]
  · intro fields oneofs hfields honeofs hmem
    rw [messageRequired] at hmem
    rcases List.mem_append.mp hmem with hmem | hmem
    · rcases List.mem_map.mp hmem with ⟨g, hgmem, hgname⟩
      have hgf := List.mem_filter.mp hgmem
      have := hpol g (hfields g hgf.1 hgname)
      rw [this] at hgf
      exact absurd hgf.2 (by simp)
    · rcases List.mem_map.mp hmem with ⟨og, hogmem, hogname⟩
      exact honeofs og (List.mem_filter.mp hogmem).1 hogname

/-- C3 witness: the repeated field "tags" and the map field "labels"
from the test proto are not required even with optional-keyword support
enabled, and their names are absent from a message's required list. -/
theorem c3_repeated_map_never_required_witness :
    (({name := "tags", kind := .string, isRepeated := true, isMap := false,
       hasOptionalKeyword := false, annotRequired := false,
       enumValues := []} : FieldDescriptor).isRepeated = true ∨
     ({name := "tags", kind := .string, isRepeated := true, isMap := false,
       hasOptionalKeyword := false, annotRequired := false,
       enumValues := []} : FieldDescriptor).isMap = true) ∧
    isFieldRequiredWithOptionalSupport true
      {name := "tags", kind := .string, isRepeated := true, isMap := false,
       hasOptionalKeyword := false, annotRequired := false, enumValues := []} = false ∧
    "tags" ∉ messageRequired true
      [{name := "name", kind := .string, isRepeated := false, isMap := false,
        hasOptionalKeyword := false, annotRequired := true, enumValues := []},
       {name := "tags", kind := .string, isRepeated := true, isMap := false,
        hasOptionalKeyword := false, annotRequired := false, enumValues := []},
       {name := "labels", kind := .string, isRepeated := false, isMap := true,
        hasOptionalKeyword := false, annotRequired := false, enumValues := []}]
      [{name := "item_type", isRequiredGroup := true}] := by
  have h := c3_repeated_map_never_required
    {name := "tags", kind := .string, isRepeated := true, isMap := false,
     hasOptionalKeyword := false, annotRequired := false, enumValues := []}
    true (Or.inl rfl)
  exact ⟨Or.inl rfl, h.1, h.2 _ _ (by decide) (by decide)⟩


/-- A concrete singular enum field with two declared values. -/
def enumStatusField : FieldDescriptor where
  name := "status"
  kind := .enum
  isRepeated := false
  isMap := false
  hasOptionalKeyword := false
  annotRequired := false
  enumValues := ["STATUS_A", "STATUS_B"]

/-- A concrete singular int64 field. -/
def int64CountField : FieldDescriptor where
  name := "count"
  kind := .int64
  isRepeated := false
  isMap := false
  hasOptionalKeyword := false
  annotRequired := false
  enumValues := []

/-- C5 counterexample: a concrete singular enum field.  TestKindToType
in pkg/generator/generator_test.go pins `kindToType` on the enum kind to
"string", so the produced schema's "type" is "string", not "integer" as
the claim states. -/
theorem c5_counterexample :
    kindToType .enum = "string" ∧
    getVal (getType enumStatusField) "type" ≠ some (.str "integer") := by
  constructor
  · rfl
  · decide

/-- C5 (amended): for every singular enum field the type derivation
produces a schema whose "type" is "string" (not "integer"), together
with a description listing the legal enum value names. -/
theorem c5_enum_schema (fd : FieldDescriptor)
    (hk : fd.kind = .enum) (hrep : fd.isRepeated = false) (hmap : fd.isMap = false) :
    getVal (getType fd) "type" = some (.str "string") ∧
    getVal (getType fd) "description" =
      some (.str (enumDescription fd.enumValues)) := by
  simp [getType, hrep, hmap, scalarSchema, hk, kindToType, getVal]

/-- C5 witness: the amended enum rule on a concrete enum field. -/
theorem c5_enum_schema_witness :
    getVal (getType enumStatusField) "type" = some (.str "string") ∧
    getVal (getType enumStatusField) "description" =
      some (.str (enumDescription ["STATUS_A", "STATUS_B"])) :=
  c5_enum_schema enumStatusField rfl rfl rfl

/-- C6: for every field of 64-bit integer kind (int64, uint64, sint64,
fixed64) the kind-derived type is "string"; a singular such field's
schema has "type" equal to "string" and in particular never "integer"
or "number". -/
theorem c6_int64_as_string (fd : FieldDescriptor)
    (hk : fd.kind = .int64 ∨ fd.kind = .uint64 ∨ fd.kind = .sint64 ∨
          fd.kind = .fixed64)
    (hrep : fd.isRepeated = false) (hmap : fd.isMap = false) :
    kindToType fd.kind = "string" ∧
    getVal (getType fd) "type" = some (.str "string") ∧
    getVal (getType fd) "type" ≠ some (.str "integer") ∧
    getVal (getType fd) "type" ≠ some (.str "number") := by
  have hkt : kindToType fd.kind = "string" := by
    rcases hk with h | h | h | h <;> rw [h] <;> rfl
  have hne : ¬ fd.kind = .enum := by
    rcases hk with h | h | h | h <;> rw [h] <;> decide
  have hty : getVal (getType fd) "type" = some (.str "string") := by
    simp [getType, hrep, hmap, scalarSchema, hne, hkt, getVal]
  refine ⟨hkt, hty, ?_, ?_⟩ <;> rw [hty] <;> decide

/-- C6 witness: the 64-bit rule on a concrete singular int64 field. -/
theorem c6_int64_as_string_witness :
    kindToType Kind.int64 = "string" ∧
    getVal (getType int64CountField) "type" = some (.str "string") ∧
    getVal (getType int64CountField) "type" ≠ some (.str "integer") ∧
    getVal (getType int64CountField) "type" ≠ some (.str "number") :=
  c6_int64_as_string int64CountField (Or.inl rfl) rfl rfl

/-- The message-reference graph consumed by the Schema Compiler: each
message's fully-qualified name mapped to the type names of its
message-typed fields (references).  Modelled from the spec: the compiler
implementation is not under src/; the spec fixes its contract — membership
check short-circuiting to a `$ref`, insertion into the definitions table
before recursing, full compilation of each reachable type exactly once. -/
abbrev MsgEnv := List (String × List String)

def lookupEnv : MsgEnv → String → Option (List String)
  | [], _ => none
  | (k, ds) :: rest, q => if k = q then some ds else lookupEnv rest q

/-- The message types referenced by the fields of message `n`. -/
def envDeps (env : MsgEnv) (n : String) : List String :=
  (lookupEnv env n).getD []

/-- Membership test on the definitions table. -/
def hasDef : Entries → String → Bool
  | [], _ => false
  | (k, _) :: rest, q => if k = q then true else hasDef rest q

/-- The `$ref` schema pointing into the definitions table. -/
def refSchema (n : String) : JSONValue :=
  .obj [("$ref", .str ("#/$defs/" ++ n))]

/-- Modelled from the spec: the object schema produced for a message —
its message-typed fields appear as `$ref` properties. -/
def msgSchemaOf (env : MsgEnv) (n : String) : JSONValue :=
  .obj [("type", .str "object"),
        ("properties", .obj ((envDeps env n).map (fun d => (d, refSchema d))))]

mutual

/-- Modelled from the spec: compile message `n` against the shared
definitions table.  If `n` already has an entry the compiler
short-circuits (the reference becomes a `$ref`); otherwise a placeholder
entry for `n` is inserted before recursing into its referenced types,
and afterwards the entry is replaced by the full schema.  Fuel makes the
recursion structural; the termination theorem shows a fuel bound on which
it never runs out. -/
def compileMsg (env : MsgEnv) : Nat → String → Entries → Option Entries
  | fuel, n, defs =>
    if hasDef defs n then some defs
    else
      match fuel with
      | 0 => none
      | f + 1 =>
        match compileDeps env f (envDeps env n) (defs ++ [(n, .null)]) with
        | some defs2 => some (setKey n (msgSchemaOf env n) defs2)
        | none => none
termination_by fuel n defs => (fuel, 0)

/-- Compile each referenced type in declaration order, threading the
definitions table. -/
def compileDeps (env : MsgEnv) : Nat → List String → Entries → Option Entries
  | _, [], defs => some defs
  | f, d :: ds, defs =>
    match compileMsg env f d defs with
    | some defs2 => compileDeps env f ds defs2
    | none => none
termination_by f ds defs => (f, ds.length + 1)

end

/-- The key column of the definitions table. -/
def defKeys (defs : Entries) : List String :=
  defs.map Prod.fst

/-- Reachability in the message-reference graph: `Reaches env a b` holds
when `b` is `a` itself or is reached from `a` through message-typed
fields. -/
inductive Reaches (env : MsgEnv) : String → String → Prop where
  | refl (a : String) : Reaches env a a
  | tail {a b c : String} : Reaches env a b → c ∈ envDeps env b → Reaches env a c

theorem Reaches.trans {env : MsgEnv} {a b c : String}
    (h1 : Reaches env a b) (h2 : Reaches env b c) : Reaches env a c := by
  induction h2 with
  | refl => exact h1
  | tail _ hd ih => exact Reaches.tail ih hd

theorem Reaches.step {env : MsgEnv} {a d : String}
    (h : d ∈ envDeps env a) : Reaches env a d :=
  Reaches.tail (Reaches.refl a) h

theorem defKeys_cons (k : String) (v : JSONValue) (rest : Entries) :
    defKeys ((k, v) :: rest) = k :: defKeys rest := rfl

theorem hasDef_iff {defs : Entries} {q : String} :
    hasDef defs q = true ↔ q ∈ defKeys defs := by
  induction defs with
  | nil => simp [hasDef, defKeys]
  | cons e rest ih =>
    cases e with
    | mk k v =>
      rw [defKeys_cons]
      by_cases hk : k = q
      · subst hk; simp [hasDef]
      · have hqk : ¬ q = k := fun h => hk h.symm
        simp [hasDef, hk, ih, hqk]

theorem defKeys_append (a b : Entries) :
    defKeys (a ++ b) = defKeys a ++ defKeys b :=
  List.map_append _ a b

theorem defKeys_setKey_present {m : Entries} {q : String} (x : JSONValue)
    (h : q ∈ defKeys m) : defKeys (setKey q x m) = defKeys m := by
  induction m with
  | nil => simp [defKeys] at h
  | cons e rest ih =>
    cases e with
    | mk k v =>
      by_cases hk : k = q
      · subst hk; simp [setKey, defKeys_cons]
      · have h2 : q ∈ defKeys rest := by
          rw [defKeys_cons] at h
          rcases List.mem_cons.mp h with h | h
          · exact absurd h.symm hk
          · exact h
        rw [setKey, if_neg hk, defKeys_cons, defKeys_cons, ih h2]

/-- Contract established by one `compileMsg` call: the table only grows,
the compiled name is present, key uniqueness is preserved, every new key
is reachable from the compiled name, and every new key's references are
themselves in the table. -/
def PostMsg (env : MsgEnv) (n : String) (defs defs2 : Entries) : Prop :=
  (∀ q, q ∈ defKeys defs → q ∈ defKeys defs2) ∧
  n ∈ defKeys defs2 ∧
  ((defKeys defs).Nodup → (defKeys defs2).Nodup) ∧
  (∀ m, m ∈ defKeys defs2 → m ∈ defKeys defs ∨ Reaches env n m) ∧
  (∀ m, m ∈ defKeys defs2 → m ∉ defKeys defs →
    ∀ d, d ∈ envDeps env m → d ∈ defKeys defs2)

/-- Contract established by one `compileDeps` call. -/
def PostDeps (env : MsgEnv) (ds : List String) (defs defs2 : Entries) : Prop :=
  (∀ q, q ∈ defKeys defs → q ∈ defKeys defs2) ∧
  (∀ d, d ∈ ds → d ∈ defKeys defs2) ∧
  ((defKeys defs).Nodup → (defKeys defs2).Nodup) ∧
  (∀ m, m ∈ defKeys defs2 → m ∈ defKeys defs ∨ ∃ d, d ∈ ds ∧ Reaches env d m) ∧
  (∀ m, m ∈ defKeys defs2 → m ∉ defKeys defs →
    ∀ d, d ∈ envDeps env m → d ∈ defKeys defs2)

mutual

theorem compileMsg_post (env : MsgEnv) :
    ∀ (fuel : Nat) (n : String) (defs defs2 : Entries),
    compileMsg env fuel n defs = some defs2 → PostMsg env n defs defs2
  | fuel, n, defs, defs2, h => by
    simp only [compileMsg.eq_def] at h
    by_cases hd : hasDef defs n
    · rw [if_pos hd] at h
      injection h with h
      subst h
      exact ⟨fun q hq => hq, hasDef_iff.mp hd, fun hn => hn,
        fun m hm => Or.inl hm, fun m hm hnm => absurd hm hnm⟩
    · rw [if_neg hd] at h
      cases fuel with
      | zero => simp at h
      | succ f =>
        simp only [] at h
        cases hc : compileDeps env f (envDeps env n) (defs ++ [(n, .null)]) with
        | none => rw [hc] at h; simp at h
        | some defsA =>
          rw [hc] at h
          injection h with h
          have hq := compileDeps_post env f (envDeps env n) (defs ++ [(n, .null)]) defsA hc
          have hnotin : n ∉ defKeys defs := fun hmem => hd (hasDef_iff.mpr hmem)
          have hkeys1 : defKeys (defs ++ [(n, JSONValue.null)]) = defKeys defs ++ [n] := by
            rw [defKeys_append]; rfl
          have hnA : n ∈ defKeys defsA := by
            apply hq.1
            rw [hkeys1]
            exact List.mem_append_right _ (List.mem_singleton.mpr rfl)
          have hkeys2 : defKeys defs2 = defKeys defsA := by
            rw [← h]
            exact defKeys_setKey_present _ hnA
          refine ⟨?_, ?_, ?_, ?_, ?_⟩
          · intro q hq2
            rw [hkeys2]
            apply hq.1
            rw [hkeys1]
            exact List.mem_append_left _ hq2
          · rw [hkeys2]; exact hnA
          · intro hnodup
            rw [hkeys2]
            apply hq.2.2.1
            rw [hkeys1]
            simp [List.nodup_append, hnodup, hnotin]
          · intro m hm
            rw [hkeys2] at hm
            rcases hq.2.2.2.1 m hm with hm2 | ⟨d, hdmem, hdr⟩
            · rw [hkeys1] at hm2
              rcases List.mem_append.mp hm2 with hm3 | hm3
              · exact Or.inl hm3
              · right
                rw [List.mem_singleton.mp hm3]
                exact Reaches.refl n
            · exact Or.inr ((Reaches.step hdmem).trans hdr)
          · intro m hm hnm d hdep
            rw [hkeys2] at hm ⊢
            by_cases hmn : m = n
            · subst hmn
              exact hq.2.1 d hdep
            · have hm1 : m ∉ defKeys (defs ++ [(n, JSONValue.null)]) := by
                rw [hkeys1]
                intro hcon
                rcases List.mem_append.mp hcon with hcon | hcon
                · exact hnm hcon
                · exact hmn (List.mem_singleton.mp hcon)
              exact hq.2.2.2.2 m hm hm1 d hdep
termination_by fuel n defs defs2 h => (fuel, 0)

theorem compileDeps_post (env : MsgEnv) :
    ∀ (f : Nat) (ds : List String) (defs defs2 : Entries),
    compileDeps env f ds defs = some defs2 → PostDeps env ds defs defs2
  | f, [], defs, defs2, h => by
    rw [compileDeps] at h
    injection h with h
    subst h
    exact ⟨fun q hq => hq, fun d hd => absurd hd (List.not_mem_nil d),
      fun hn => hn, fun m hm => Or.inl hm, fun m hm hnm => absurd hm hnm⟩
  | f, d :: ds, defs, defs2, h => by
    rw [compileDeps] at h
    cases hc : compileMsg env f d defs with
    | none => rw [hc] at h; simp at h
    | some defsA =>
      rw [hc] at h
      have hP := compileMsg_post env f d defs defsA hc
      have hQ := compileDeps_post env f ds defsA defs2 h
      refine ⟨?_, ?_, ?_, ?_, ?_⟩
      · intro q hq
        exact hQ.1 q (hP.1 q hq)
      · intro d2 hd2
        rcases List.mem_cons.mp hd2 with hd2 | hd2
        · subst hd2; exact hQ.1 d2 hP.2.1
        · exact hQ.2.1 d2 hd2
      · intro hnodup
        exact hQ.2.2.1 (hP.2.2.1 hnodup)
      · intro m hm
        rcases hQ.2.2.2.1 m hm with hm2 | ⟨d2, hd2, hdr⟩
        · rcases hP.2.2.2.1 m hm2 with hm3 | hm3
          · exact Or.inl hm3
          · exact Or.inr ⟨d, List.mem_cons_self d ds, hm3⟩
        · exact Or.inr ⟨d2, List.mem_cons_of_mem d hd2, hdr⟩
      · intro m hm hnm d2 hdep
        by_cases hmA : m ∈ defKeys defsA
        · exact hQ.1 d2 (hP.2.2.2.2 m hmA hnm d2 hdep)
        · exact hQ.2.2.2.2 m hm hmA d2 hdep
termination_by f ds defs defs2 h => (f, ds.length + 1)

end

/-- Every message name that can ever be inserted: the root plus every
name and reference listed in the graph, deduplicated. -/
def namePool (env : MsgEnv) (root : String) : List String :=
  (root :: env.foldr (fun e acc => e.1 :: (e.2 ++ acc)) []).dedup

theorem namePool_nodup (env : MsgEnv) (root : String) :
    (namePool env root).Nodup :=
  List.nodup_dedup _

theorem root_mem_namePool (env : MsgEnv) (root : String) :
    root ∈ namePool env root :=
  List.mem_dedup.mpr (List.mem_cons_self _ _)

theorem lookupEnv_mem : ∀ {env : MsgEnv} {n : String} {ds : List String},
    lookupEnv env n = some ds → (n, ds) ∈ env := by
  intro env
  induction env with
  | nil => intro n ds h; simp [lookupEnv] at h
  | cons e rest ih =>
    intro n ds h
    cases e with
    | mk k ds2 =>
      by_cases hk : k = n
      · subst hk
        simp [lookupEnv] at h
        subst h
        exact List.mem_cons_self _ _
      · simp [lookupEnv, hk] at h
        exact List.mem_cons_of_mem _ (ih h)

theorem mem_foldr_of_mem_env : ∀ {env : MsgEnv} {n d : String} {ds : List String},
    (n, ds) ∈ env → d ∈ ds →
    d ∈ env.foldr (fun e acc => e.1 :: (e.2 ++ acc)) [] := by
  intro env
  induction env with
  | nil => intro n d ds h; cases h
  | cons e rest ih =>
    intro n d ds h hd
    rcases List.mem_cons.mp h with h | h
    · subst h
      exact List.mem_cons_of_mem _ (List.mem_append_left _ hd)
    · exact List.mem_cons_of_mem _ (List.mem_append_right _ (ih h hd))

theorem envDeps_mem_namePool {env : MsgEnv} (root : String) {n d : String}
    (h : d ∈ envDeps env n) : d ∈ namePool env root := by
  unfold envDeps at h
  cases hl : lookupEnv env n with
  | none => rw [hl] at h; simp at h
  | some ds =>
    rw [hl] at h
    simp at h
    exact List.mem_dedup.mpr
      (List.mem_cons_of_mem _ (mem_foldr_of_mem_env (lookupEnv_mem hl) h))

theorem Reaches_mem_namePool {env : MsgEnv} {root a m : String}
    (h : Reaches env a m) (ha : a ∈ namePool env root) :
    m ∈ namePool env root := by
  induction h with
  | refl => exact ha
  | tail _ hd _ => exact envDeps_mem_namePool root hd

/-- How many candidate names are still missing from the table. -/
def countMissing (names : List String) (defs : Entries) : Nat :=
  (names.filter (fun q => !hasDef defs q)).length

theorem hasDef_append (a b : Entries) (q : String) :
    hasDef (a ++ b) q = (hasDef a q || hasDef b q) := by
  induction a with
  | nil => simp [hasDef]
  | cons e rest ih =>
    cases e with
    | mk k v =>
      by_cases hk : k = q
      · simp [hasDef, hk]
      · simp [hasDef, hk, ih]

theorem countMissing_mono {names : List String} {defs defs2 : Entries}
    (h : ∀ q, hasDef defs q = true → hasDef defs2 q = true) :
    countMissing names defs2 ≤ countMissing names defs := by
  induction names with
  | nil => exact le_refl _
  | cons q rest ih =>
    unfold countMissing at *
    rw [List.filter_cons, List.filter_cons]
    by_cases h2 : hasDef defs2 q
    · by_cases h1 : hasDef defs q
      · simp [h1, h2]; exact ih
      · simp [h1, h2]; omega
    · have h1 : ¬ hasDef defs q = true := fun hc => h2 (h q hc)
      simp [h1, h2]
      omega

theorem countMissing_insert {names : List String} {defs : Entries} {n : String}
    (x : JSONValue) (hnodup : names.Nodup) (hn : n ∈ names)
    (hd : hasDef defs n = false) :
    countMissing names (defs ++ [(n, x)]) < countMissing names defs := by
  induction names with
  | nil => cases hn
  | cons q rest ih =>
    have hq_notin : q ∉ rest := (List.nodup_cons.mp hnodup).1
    have hnodup2 : rest.Nodup := (List.nodup_cons.mp hnodup).2
    rcases List.mem_cons.mp hn with hq | hq
    · subst hq
      have hin : hasDef (defs ++ [(n, x)]) n = true := by
        rw [hasDef_append]; simp [hasDef]
      unfold countMissing
      rw [List.filter_cons, List.filter_cons]
      have hcong : ∀ q2 ∈ rest, (!hasDef (defs ++ [(n, x)]) q2) =
          (!hasDef defs q2) := by
        intro q2 hq2
        have hne : ¬ n = q2 := fun h => hq_notin (h ▸ hq2)
        rw [hasDef_append]
        simp [hasDef, hne]
      rw [List.filter_congr hcong]
      simp [hin, hd]
    · have hne : ¬ n = q := fun h => hq_notin (h ▸ hq)
      have hsame : hasDef (defs ++ [(n, x)]) q = hasDef defs q := by
        rw [hasDef_append]; simp [hasDef, hne]
      have ihh := ih hnodup2 hq
      unfold countMissing at *
      rw [List.filter_cons, List.filter_cons, hsame]
      by_cases hQ : hasDef defs q <;> simp [hQ] <;> omega

mutual

theorem compileMsg_success (env : MsgEnv) (root : String) :
    ∀ (fuel : Nat) (n : String) (defs : Entries),
    n ∈ namePool env root →
    (∀ q, q ∈ defKeys defs → q ∈ namePool env root) →
    countMissing (namePool env root) defs < fuel →
    ∃ defs2, compileMsg env fuel n defs = some defs2
  | fuel, n, defs, hn, hsub, hcount => by
    by_cases hd : hasDef defs n
    · refine ⟨defs, ?_⟩
      simp only [compileMsg.eq_def]
      rw [if_pos hd]
    · have hmiss : 0 < countMissing (namePool env root) defs := by
        have hmem : n ∈ (namePool env root).filter (fun q => !hasDef defs q) :=
          List.mem_filter.mpr ⟨hn, by simp [hd]⟩
        exact List.length_pos_of_mem hmem
      cases fuel with
      | zero => omega
      | succ f =>
        have hdfalse : hasDef defs n = false := by
          cases hval : hasDef defs n
          · rfl
          · exact absurd hval hd
        have hsub1 : ∀ q, q ∈ defKeys (defs ++ [(n, JSONValue.null)]) →
            q ∈ namePool env root := by
          intro q hq
          rw [defKeys_append] at hq
          rcases List.mem_append.mp hq with hq | hq
          · exact hsub q hq
          · rw [List.mem_singleton.mp hq]; exact hn
        have hcount1 : countMissing (namePool env root)
            (defs ++ [(n, JSONValue.null)]) < f := by
          have := countMissing_insert JSONValue.null
            (namePool_nodup env root) hn hdfalse
          omega
        have hdeps : ∀ d, d ∈ envDeps env n → d ∈ namePool env root :=
          fun d hd2 => envDeps_mem_namePool root hd2
        obtain ⟨defsA, hA⟩ := compileDeps_success env root f (envDeps env n)
          (defs ++ [(n, JSONValue.null)]) hdeps hsub1 hcount1
        refine ⟨setKey n (msgSchemaOf env n) defsA, ?_⟩
        simp only [compileMsg.eq_def]
        rw [if_neg hd]
        simp [hA]
termination_by fuel n defs hn hsub hcount => (fuel, 0)

theorem compileDeps_success (env : MsgEnv) (root : String) :
    ∀ (f : Nat) (ds : List String) (defs : Entries),
    (∀ d, d ∈ ds → d ∈ namePool env root) →
    (∀ q, q ∈ defKeys defs → q ∈ namePool env root) →
    countMissing (namePool env root) defs < f →
    ∃ defs2, compileDeps env f ds defs = some defs2
  | f, [], defs, _, _, _ => ⟨defs, by rw [compileDeps]⟩
  | f, d :: ds, defs, hds, hsub, hcount => by
    obtain ⟨defsA, hA⟩ := compileMsg_success env root f d defs
      (hds d (List.mem_cons_self d ds)) hsub hcount
    have hP := compileMsg_post env f d defs defsA hA
    have hsubA : ∀ q, q ∈ defKeys defsA → q ∈ namePool env root := by
      intro q hq
      rcases hP.2.2.2.1 q hq with hq2 | hq2
      · exact hsub q hq2
      · exact Reaches_mem_namePool hq2 (hds d (List.mem_cons_self d ds))
    have hcountA : countMissing (namePool env root) defsA ≤
        countMissing (namePool env root) defs := by
      apply countMissing_mono
      intro q hq
      exact hasDef_iff.mpr (hP.1 q (hasDef_iff.mp hq))
    obtain ⟨defs2, hB⟩ := compileDeps_success env root f ds defsA
      (fun d2 hd2 => hds d2 (List.mem_cons_of_mem d hd2)) hsubA
      (lt_of_le_of_lt hcountA hcount)
    refine ⟨defs2, ?_⟩
    rw [compileDeps, hA]
    exact hB
termination_by f ds defs hds hsub hcount => (f, ds.length + 1)

end

/-- The compilation entry point: compile `root` against an initially
empty definitions table, with fuel that the termination theorem shows
sufficient. -/
def compileRoot (env : MsgEnv) (root : String) : Option Entries :=
  compileMsg env ((namePool env root).length + 1) root []

/-- The message-reference graph reachable from `root` contains a cycle:
some reachable `a` reaches itself again through at least one reference
edge. -/
def HasCycle (env : MsgEnv) (root : String) : Prop :=
  ∃ a b, Reaches env root a ∧ b ∈ envDeps env a ∧ Reaches env b a

/-- C4: for every message graph whose reachable part contains a cycle
(self-reference, mutual recursion, or sharing), compilation from an
empty definitions table terminates (the fuelled recursion succeeds on
the stated bound), and the resulting table has pairwise-distinct keys
holding exactly the type names reachable from the root: one entry per
distinct type, not per reference. -/
theorem c4_cyclic_compilation (env : MsgEnv) (root : String)
    (hcyc : HasCycle env root) :
    ∃ defs, compileRoot env root = some defs ∧
      (defKeys defs).Nodup ∧
      ∀ n, n ∈ defKeys defs ↔ Reaches env root n := by
  clear hcyc
  have hcount : countMissing (namePool env root) [] <
      (namePool env root).length + 1 := by
    have : countMissing (namePool env root) [] ≤ (namePool env root).length :=
      List.length_filter_le _ _
    omega
  obtain ⟨defs, hdefs⟩ := compileMsg_success env root
    ((namePool env root).length + 1) root []
    (root_mem_namePool env root) (by intro q hq; simp [defKeys] at hq) hcount
  have hP := compileMsg_post env _ root [] defs hdefs
  refine ⟨defs, hdefs, hP.2.2.1 List.nodup_nil, ?_⟩
  intro n
  constructor
  · intro hn
    rcases hP.2.2.2.1 n hn with hn2 | hn2
    · simp [defKeys] at hn2
    · exact hn2
  · intro hr
    induction hr with
    | refl => exact hP.2.1
    | tail hr2 hd ih =>
      rename_i b c
      exact hP.2.2.2.2 b ih (by simp [defKeys]) c hd

/-- A two-message mutually recursive graph. -/
def mutualEnv : MsgEnv := [("A", ["B"]), ("B", ["A"])]

/-- C4 witness: the mutually recursive graph A referencing B referencing
A has a cycle, and its compilation terminates with a well-keyed table
covering exactly the reachable names. -/
theorem c4_cyclic_compilation_witness :
    HasCycle mutualEnv "A" ∧
    (∃ defs, compileRoot mutualEnv "A" = some defs ∧
      (defKeys defs).Nodup ∧
      ∀ n, n ∈ defKeys defs ↔ Reaches mutualEnv "A" n) := by
  have hc : HasCycle mutualEnv "A" := by
    refine ⟨"A", "B", Reaches.refl "A", by decide, ?_⟩
    exact Reaches.tail (Reaches.refl "B")
      (show "A" ∈ envDeps mutualEnv "B" by decide)
  exact ⟨hc, c4_cyclic_compilation mutualEnv "A" hc⟩

/-- The discriminator of a firing wrapper entry: `some t` exactly when
key `k` ends in "OneOfType" and `v` is a mapping whose "object_type"
value is the string `t`. -/
def fireTarget (k : String) (v : JSONValue) : Option String :=
  if hasSuffix k "OneOfType" then
    match v with
    | .obj w =>
      match getVal w "object_type" with
      | some (.str t) => some t
      | _ => none
    | _ => none
  else none

/-- Branch-precise shape of one loop iteration. -/
theorem processKey_cases2 (k : String) (m : Entries) :
    processKey k m = m ∨
    ∃ w t, hasSuffix k "OneOfType" = true ∧
      getVal m k = some (.obj w) ∧
      getVal w "object_type" = some (.str t) ∧
      ((∃ p, getVal w t = some p ∧ processKey k m = eraseKey k (setKey t p m)) ∨
       (getVal w t = none ∧
        processKey k m = eraseKey k (setKey t (.obj (eraseKey "object_type" w)) m))) := by
  unfold processKey
  split
  next hsuf =>
    split
    next w heq =>
      split
      next t heq2 =>
        split
        next p heq3 =>
          exact Or.inr ⟨w, t, hsuf, heq, heq2, Or.inl ⟨p, heq3, rfl⟩⟩
        next heq3 =>
          exact Or.inr ⟨w, t, hsuf, heq, heq2, Or.inr ⟨heq3, rfl⟩⟩
      next => left; rfl
    next => left; rfl
  next hsuf => left; rfl

theorem fireTarget_of_fire {k : String} {w : Entries} {t : String}
    (hsuf : hasSuffix k "OneOfType" = true)
    (hot : getVal w "object_type" = some (.str t)) :
    fireTarget k (.obj w) = some t := by
  simp [fireTarget, hsuf, hot]

/-- A key that does not end in "OneOfType" is a no-op for the loop. -/
theorem processKey_nonsuffix {k : String} (m : Entries)
    (h : hasSuffix k "OneOfType" = false) : processKey k m = m := by
  simp [processKey, h]

/-- A key whose current value does not fire is a no-op for the loop. -/
theorem processKey_nofire {k : String} {m : Entries}
    (h : ∀ v, getVal m k = some v → fireTarget k v = none) :
    processKey k m = m := by
  rcases processKey_cases2 k m with hc | ⟨w, t, hsuf, hk, hot, _⟩
  · exact hc
  · have := h _ hk
    rw [fireTarget_of_fire hsuf hot] at this
    cases this

-- Hereditary predicates on JSON values: `tame` bounds the discriminator
-- strings (no "OneOfType" suffix, never "object_type") of every firing
-- wrapper at every level; `wfV` states hereditary key uniqueness (Go
-- maps cannot hold duplicate keys); `noFire` states that no wrapper
-- fires anywhere; `amo` states that every mapping has at most one key
-- ending in "OneOfType".

mutual

def tame : JSONValue → Bool
  | .obj m => tameE m
  | .arr l => tameL l
  | _ => true

def tameE : Entries → Bool
  | [] => true
  | (k, v) :: rest =>
    (match fireTarget k v with
     | some t => !hasSuffix t "OneOfType" && !(t = "object_type" : Bool)
     | none => true) && tame v && tameE rest

def tameL : List JSONValue → Bool
  | [] => true
  | v :: rest => tame v && tameL rest

end

def nodupKeysB : List String → Bool
  | [] => true
  | k :: rest => !(k ∈ rest : Bool) && nodupKeysB rest

mutual

def wfV : JSONValue → Bool
  | .obj m => nodupKeysB (m.map Prod.fst) && wfE m
  | .arr l => wfL l
  | _ => true

def wfE : Entries → Bool
  | [] => true
  | (_, v) :: rest => wfV v && wfE rest

def wfL : List JSONValue → Bool
  | [] => true
  | v :: rest => wfV v && wfL rest

end

mutual

def noFire : JSONValue → Bool
  | .obj m => noFireE m
  | .arr l => noFireL l
  | _ => true

def noFireE : Entries → Bool
  | [] => true
  | (k, v) :: rest => (fireTarget k v).isNone && noFire v && noFireE rest

def noFireL : List JSONValue → Bool
  | [] => true
  | v :: rest => noFire v && noFireL rest

end

def countSuffixed (ks : List String) : Nat :=
  (ks.filter (fun k => hasSuffix k "OneOfType")).length

mutual

def amo : JSONValue → Bool
  | .obj m => (countSuffixed (m.map Prod.fst) ≤ 1 : Bool) && amoE m
  | .arr l => amoL l
  | _ => true

def amoE : Entries → Bool
  | [] => true
  | (_, v) :: rest => amo v && amoE rest

def amoL : List JSONValue → Bool
  | [] => true
  | v :: rest => amo v && amoL rest

end

theorem nodupKeysB_iff : ∀ {ks : List String},
    nodupKeysB ks = true ↔ ks.Nodup := by
  intro ks
  induction ks with
  | nil => simp [nodupKeysB]
  | cons k rest ih => simp [nodupKeysB, ih]

theorem tameE_mem : ∀ {m : Entries} {k : String} {v : JSONValue},
    tameE m = true → (k, v) ∈ m →
    tame v = true ∧
    (∀ t, fireTarget k v = some t →
      hasSuffix t "OneOfType" = false ∧ t ≠ "object_type") := by
  intro m
  induction m with
  | nil => intro k v _ h; cases h
  | cons e rest ih =>
    intro k v ht hmem
    cases e with
    | mk k2 v2 =>
      rw [tameE] at ht
      simp only [Bool.and_eq_true] at ht
      rcases List.mem_cons.mp hmem with h | h
      · have hk : k2 = k := congrArg Prod.fst h.symm
        have hv : v2 = v := congrArg Prod.snd h.symm
        subst hk; subst hv
        refine ⟨ht.1.2, ?_⟩
        intro t hft
        rw [hft] at ht
        have := ht.1.1
        simp at this
        exact ⟨this.1, this.2⟩
      · exact ih ht.2 h

theorem wfE_mem : ∀ {m : Entries} {k : String} {v : JSONValue},
    wfE m = true → (k, v) ∈ m → wfV v = true := by
  intro m
  induction m with
  | nil => intro k v _ h; cases h
  | cons e rest ih =>
    intro k v hw hmem
    cases e with
    | mk k2 v2 =>
      rw [wfE] at hw
      simp only [Bool.and_eq_true] at hw
      rcases List.mem_cons.mp hmem with h | h
      · have hv : v2 = v := congrArg Prod.snd h.symm
        subst hv; exact hw.1
      · exact ih hw.2 h

theorem amoE_mem : ∀ {m : Entries} {k : String} {v : JSONValue},
    amoE m = true → (k, v) ∈ m → amo v = true := by
  intro m
  induction m with
  | nil => intro k v _ h; cases h
  | cons e rest ih =>
    intro k v hw hmem
    cases e with
    | mk k2 v2 =>
      rw [amoE] at hw
      simp only [Bool.and_eq_true] at hw
      rcases List.mem_cons.mp hmem with h | h
      · have hv : v2 = v := congrArg Prod.snd h.symm
        subst hv; exact hw.1
      · exact ih hw.2 h

theorem noFireE_mem : ∀ {m : Entries} {k : String} {v : JSONValue},
    noFireE m = true → (k, v) ∈ m →
    fireTarget k v = none ∧ noFire v = true := by
  intro m
  induction m with
  | nil => intro k v _ h; cases h
  | cons e rest ih =>
    intro k v hw hmem
    cases e with
    | mk k2 v2 =>
      rw [noFireE] at hw
      simp only [Bool.and_eq_true] at hw
      rcases List.mem_cons.mp hmem with h | h
      · have hk : k2 = k := congrArg Prod.fst h.symm
        have hv : v2 = v := congrArg Prod.snd h.symm
        subst hk; subst hv
        exact ⟨Option.isNone_iff_eq_none.mp hw.1.1, hw.1.2⟩
      · exact ih hw.2 h

theorem tameL_mem {l : List JSONValue} {v : JSONValue}
    (h : tameL l = true) (hm : v ∈ l) : tame v = true := by
  induction l with
  | nil => cases hm
  | cons x rest ih =>
    rw [tameL, Bool.and_eq_true] at h
    rcases List.mem_cons.mp hm with hm | hm
    · subst hm; exact h.1
    · exact ih h.2 hm

theorem wfL_mem {l : List JSONValue} {v : JSONValue}
    (h : wfL l = true) (hm : v ∈ l) : wfV v = true := by
  induction l with
  | nil => cases hm
  | cons x rest ih =>
    rw [wfL, Bool.and_eq_true] at h
    rcases List.mem_cons.mp hm with hm | hm
    · subst hm; exact h.1
    · exact ih h.2 hm

theorem noFireL_mem {l : List JSONValue} {v : JSONValue}
    (h : noFireL l = true) (hm : v ∈ l) : noFire v = true := by
  induction l with
  | nil => cases hm
  | cons x rest ih =>
    rw [noFireL, Bool.and_eq_true] at h
    rcases List.mem_cons.mp hm with hm | hm
    · subst hm; exact h.1
    · exact ih h.2 hm

theorem amoL_mem {l : List JSONValue} {v : JSONValue}
    (h : amoL l = true) (hm : v ∈ l) : amo v = true := by
  induction l with
  | nil => cases hm
  | cons x rest ih =>
    rw [amoL, Bool.and_eq_true] at h
    rcases List.mem_cons.mp hm with hm | hm
    · subst hm; exact h.1
    · exact ih h.2 hm

theorem noFireE_of_forall {m : Entries}
    (h : ∀ e ∈ m, fireTarget e.1 e.2 = none ∧ noFire e.2 = true) :
    noFireE m = true := by
  induction m with
  | nil => rfl
  | cons e rest ih =>
    cases e with
    | mk k v =>
      rw [noFireE, Bool.and_eq_true, Bool.and_eq_true]
      have he := h (k, v) (List.mem_cons_self _ _)
      exact ⟨⟨by rw [he.1]; rfl, he.2⟩,
        ih (fun e2 he2 => h e2 (List.mem_cons_of_mem _ he2))⟩

theorem noFireL_of_forall {l : List JSONValue}
    (h : ∀ v ∈ l, noFire v = true) : noFireL l = true := by
  induction l with
  | nil => rfl
  | cons x rest ih =>
    rw [noFireL, Bool.and_eq_true]
    exact ⟨h x (List.mem_cons_self _ _),
      ih (fun v hv => h v (List.mem_cons_of_mem _ hv))⟩

theorem getVal_mapSnd (f : JSONValue → JSONValue) (m : Entries) (q : String) :
    getVal (m.map (fun e => (e.1, f e.2))) q = Option.map f (getVal m q) := by
  induction m with
  | nil => rfl
  | cons e rest ih =>
    cases e with
    | mk k v =>
      by_cases hk : k = q
      · simp [getVal, hk]
      · simp [getVal, hk, ih]

theorem getVal_of_mem_nodup {m : Entries} {q : String} {v : JSONValue}
    (hm : (q, v) ∈ m) (hnd : (m.map Prod.fst).Nodup) :
    getVal m q = some v := by
  induction m with
  | nil => cases hm
  | cons e rest ih =>
    cases e with
    | mk k v2 =>
      rw [List.map_cons, List.nodup_cons] at hnd
      rcases List.mem_cons.mp hm with h | h
      · have hk : k = q := congrArg Prod.fst h.symm
        have hv : v2 = v := congrArg Prod.snd h.symm
        subst hk; subst hv
        simp [getVal]
      · have hk : ¬ k = q := by
          intro hkq
          subst hkq
          exact hnd.1 (List.mem_map.mpr ⟨(k, v), h, rfl⟩)
        simp [getVal, hk]
        exact ih h hnd.2

theorem eraseKey_sublist (q : String) (m : Entries) :
    (eraseKey q m).Sublist m :=
  List.filter_sublist m

theorem tameE_eraseKey (q : String) {w : Entries}
    (h : tameE w = true) : tameE (eraseKey q w) = true := by
  induction w with
  | nil => rfl
  | cons e rest ih =>
    cases e with
    | mk k v =>
      rw [tameE, Bool.and_eq_true, Bool.and_eq_true] at h
      by_cases hk : k = q
      · rw [eraseKey_cons_self hk]
        exact ih h.2
      · rw [eraseKey_cons_ne hk, tameE, Bool.and_eq_true, Bool.and_eq_true]
        exact ⟨h.1, ih h.2⟩

theorem wfE_eraseKey (q : String) {w : Entries}
    (h : wfE w = true) : wfE (eraseKey q w) = true := by
  induction w with
  | nil => rfl
  | cons e rest ih =>
    cases e with
    | mk k v =>
      rw [wfE, Bool.and_eq_true] at h
      by_cases hk : k = q
      · rw [eraseKey_cons_self hk]
        exact ih h.2
      · rw [eraseKey_cons_ne hk, wfE, Bool.and_eq_true]
        exact ⟨h.1, ih h.2⟩

theorem amoE_eraseKey (q : String) {w : Entries}
    (h : amoE w = true) : amoE (eraseKey q w) = true := by
  induction w with
  | nil => rfl
  | cons e rest ih =>
    cases e with
    | mk k v =>
      rw [amoE, Bool.and_eq_true] at h
      by_cases hk : k = q
      · rw [eraseKey_cons_self hk]
        exact ih h.2
      · rw [eraseKey_cons_ne hk, amoE, Bool.and_eq_true]
        exact ⟨h.1, ih h.2⟩

theorem nodupKeysB_eraseKey (q : String) {w : Entries}
    (h : nodupKeysB (w.map Prod.fst) = true) :
    nodupKeysB ((eraseKey q w).map Prod.fst) = true := by
  rw [nodupKeysB_iff] at h ⊢
  exact h.sublist (List.Sublist.map Prod.fst (eraseKey_sublist q w))

theorem countSuffixed_eraseKey_le (q : String) (w : Entries) :
    countSuffixed ((eraseKey q w).map Prod.fst) ≤
      countSuffixed (w.map Prod.fst) := by
  unfold countSuffixed
  exact List.Sublist.length_le
    (List.Sublist.filter _ (List.Sublist.map Prod.fst (eraseKey_sublist q w)))

theorem fireTarget_nonobj {k : String} {v : JSONValue}
    (h : ∀ w, v ≠ .obj w) : fireTarget k v = none := by
  unfold fireTarget
  cases v with
  | obj w => exact absurd rfl (h w)
  | arr l => simp
  | str s => simp
  | num n => simp
  | bool b => simp
  | null => simp

theorem fireTarget_obj_noot {k : String} {w : Entries}
    (h : getVal w "object_type" = none) : fireTarget k (.obj w) = none := by
  simp [fireTarget, h]

theorem fireTarget_obj_nonstr {k : String} {w : Entries} {x : JSONValue}
    (h : getVal w "object_type" = some x) (hx : ∀ s, x ≠ .str s) :
    fireTarget k (.obj w) = none := by
  unfold fireTarget
  cases x with
  | str s => exact absurd rfl (hx s)
  | obj w2 => simp [h]
  | arr l => simp [h]
  | num n => simp [h]
  | bool b => simp [h]
  | null => simp [h]

theorem fireTarget_none_obj {q : String} {w : Entries}
    (hsuf : hasSuffix q "OneOfType" = true)
    (h : fireTarget q (.obj w) = none) :
    getVal w "object_type" = none ∨
    ∃ x, getVal w "object_type" = some x ∧ ∀ s, x ≠ .str s := by
  cases hot : getVal w "object_type" with
  | none => exact Or.inl rfl
  | some x =>
    cases x with
    | str s =>
      exfalso
      rw [fireTarget_of_fire hsuf hot] at h
      cases h
    | obj w2 => exact Or.inr ⟨.obj w2, rfl, fun s hs => JSONValue.noConfusion hs⟩
    | arr l => exact Or.inr ⟨.arr l, rfl, fun s hs => JSONValue.noConfusion hs⟩
    | num n => exact Or.inr ⟨.num n, rfl, fun s hs => JSONValue.noConfusion hs⟩
    | bool b => exact Or.inr ⟨.bool b, rfl, fun s hs => JSONValue.noConfusion hs⟩
    | null => exact Or.inr ⟨.null, rfl, fun s hs => JSONValue.noConfusion hs⟩

theorem fireTarget_some_elim {k : String} {v : JSONValue} {t : String}
    (h : fireTarget k v = some t) :
    hasSuffix k "OneOfType" = true ∧
    ∃ w, v = .obj w ∧ getVal w "object_type" = some (.str t) := by
  by_cases hsuf : hasSuffix k "OneOfType"
  · cases v with
    | obj w =>
      cases hot : getVal w "object_type" with
      | none => rw [fireTarget_obj_noot hot] at h; cases h
      | some x =>
        cases x with
        | str s =>
          rw [fireTarget_of_fire hsuf hot] at h
          injection h with h
          subst h
          exact ⟨hsuf, w, rfl, hot⟩
        | obj w2 =>
          rw [fireTarget_obj_nonstr hot (fun s hs => JSONValue.noConfusion hs)] at h
          cases h
        | arr l =>
          rw [fireTarget_obj_nonstr hot (fun s hs => JSONValue.noConfusion hs)] at h
          cases h
        | num n =>
          rw [fireTarget_obj_nonstr hot (fun s hs => JSONValue.noConfusion hs)] at h
          cases h
        | bool b =>
          rw [fireTarget_obj_nonstr hot (fun s hs => JSONValue.noConfusion hs)] at h
          cases h
        | null =>
          rw [fireTarget_obj_nonstr hot (fun s hs => JSONValue.noConfusion hs)] at h
          cases h
    | arr l => rw [fireTarget_nonobj (fun w hw => JSONValue.noConfusion hw)] at h; cases h
    | str s => rw [fireTarget_nonobj (fun w hw => JSONValue.noConfusion hw)] at h; cases h
    | num n => rw [fireTarget_nonobj (fun w hw => JSONValue.noConfusion hw)] at h; cases h
    | bool b => rw [fireTarget_nonobj (fun w hw => JSONValue.noConfusion hw)] at h; cases h
    | null => rw [fireTarget_nonobj (fun w hw => JSONValue.noConfusion hw)] at h; cases h
  · unfold fireTarget at h
    rw [if_neg hsuf] at h
    cases h

theorem keys_setKey_mem {m : Entries} {t q : String} {x : JSONValue}
    (h : q ∈ (setKey t x m).map Prod.fst) :
    q ∈ m.map Prod.fst ∨ q = t := by
  rcases List.mem_map.mp h with ⟨e, he, hq⟩
  rcases setKey_mem he with he2 | he2
  · exact Or.inl (List.mem_map.mpr ⟨e, he2, hq⟩)
  · right; rw [← hq, he2]

theorem nodup_keys_setKey {m : Entries} (t : String) (x : JSONValue)
    (h : (m.map Prod.fst).Nodup) :
    ((setKey t x m).map Prod.fst).Nodup := by
  induction m with
  | nil => simp [setKey]
  | cons e rest ih =>
    cases e with
    | mk k v =>
      rw [List.map_cons, List.nodup_cons] at h
      by_cases hk : k = t
      · subst hk
        rw [setKey, if_pos rfl, List.map_cons, List.nodup_cons]
        exact ⟨h.1, h.2⟩
      · rw [setKey, if_neg hk, List.map_cons, List.nodup_cons]
        refine ⟨?_, ih h.2⟩
        intro hcon
        rcases keys_setKey_mem hcon with hcon | hcon
        · exact h.1 hcon
        · exact hk hcon

theorem nodup_keys_eraseKey {m : Entries} (q : String)
    (h : (m.map Prod.fst).Nodup) :
    ((eraseKey q m).map Prod.fst).Nodup :=
  h.sublist (List.Sublist.map Prod.fst (eraseKey_sublist q m))

/-- Provenance of an entry of the evolving mapping during phase one:
either it was present initially, or it is the result of promoting a
firing wrapper that was present initially. -/
def EntryProv (m0 : Entries) (q : String) (v : JSONValue) : Prop :=
  (q, v) ∈ m0 ∨
  ∃ k w, (k, JSONValue.obj w) ∈ m0 ∧ hasSuffix k "OneOfType" = true ∧
    getVal w "object_type" = some (.str q) ∧
    (getVal w q = some v ∨
     (getVal w q = none ∧ v = .obj (eraseKey "object_type" w)))

/-- Invariant maintained by phase one over a tame well-keyed mapping:
keys ending in "OneOfType" still hold their initial values, every entry
has a provenance, the "object_type" binding of the level is untouched,
and keys stay pairwise distinct. -/
def PhaseInv (m0 m : Entries) : Prop :=
  (∀ q v, hasSuffix q "OneOfType" = true → getVal m q = some v →
    getVal m0 q = some v) ∧
  (∀ e ∈ m, EntryProv m0 e.1 e.2) ∧
  getVal m "object_type" = getVal m0 "object_type" ∧
  (m.map Prod.fst).Nodup

theorem Inv_init {m0 : Entries} (h : (m0.map Prod.fst).Nodup) : PhaseInv m0 m0 :=
  ⟨fun _ _ _ hv => hv, fun e he => Or.inl (by cases e; exact he), rfl, h⟩

theorem objtype_not_suffixed : hasSuffix "object_type" "OneOfType" = false := by
  decide

theorem prov_suffixed {m0 : Entries} {q : String} {v : JSONValue}
    (htame : tameE m0 = true) (hp : EntryProv m0 q v)
    (hsuf : hasSuffix q "OneOfType" = true) : (q, v) ∈ m0 := by
  rcases hp with hp | ⟨k, w, hkw, hksuf, hot, _⟩
  · exact hp
  · exfalso
    have := (tameE_mem htame hkw).2 q (fireTarget_of_fire hksuf hot)
    rw [this.1] at hsuf
    cases hsuf

/-- Conditions on the discriminator of a wrapper firing against the
current state: the wrapper is original (its key is suffixed), so
tameness of the original mapping bounds the discriminator. -/
theorem fire_conditions {m0 m : Entries} {k t : String} {w : Entries}
    (htame : tameE m0 = true) (hI : PhaseInv m0 m)
    (hsuf : hasSuffix k "OneOfType" = true)
    (hk : getVal m k = some (.obj w))
    (hot : getVal w "object_type" = some (.str t)) :
    (k, JSONValue.obj w) ∈ m0 ∧
    hasSuffix t "OneOfType" = false ∧ t ≠ "object_type" := by
  have hk0 : getVal m0 k = some (.obj w) := hI.1 k _ hsuf hk
  have hmem0 : (k, JSONValue.obj w) ∈ m0 := getVal_mem hk0
  have hcond := (tameE_mem htame hmem0).2 t (fireTarget_of_fire hsuf hot)
  exact ⟨hmem0, hcond.1, hcond.2⟩

theorem Inv_step {m0 m : Entries} (htame : tameE m0 = true) (k : String)
    (hI : PhaseInv m0 m) : PhaseInv m0 (processKey k m) := by
  rcases processKey_cases2 k m with hc | ⟨w, t, hsuf, hk, hot, hbr⟩
  · rw [hc]; exact hI
  · obtain ⟨hmem0, htS, htO⟩ := fire_conditions htame hI hsuf hk hot
    have hknotot : ¬ k = "object_type" := by
      intro hkeq
      rw [hkeq, objtype_not_suffixed] at hsuf
      cases hsuf
    obtain ⟨x, hxprov, heq⟩ :
        ∃ x, (getVal w t = some x ∨
              (getVal w t = none ∧ x = .obj (eraseKey "object_type" w))) ∧
          processKey k m = eraseKey k (setKey t x m) := by
      rcases hbr with ⟨p, hp, heq⟩ | ⟨hp, heq⟩
      · exact ⟨p, Or.inl hp, heq⟩
      · exact ⟨.obj (eraseKey "object_type" w), Or.inr ⟨hp, rfl⟩, heq⟩
    rw [heq]
    refine ⟨?_, ?_, ?_, ?_⟩
    · intro q v hqsuf hget
      by_cases hqk : q = k
      · subst hqk
        rw [getVal_eraseKey_self] at hget
        cases hget
      · rw [getVal_eraseKey_other hqk] at hget
        have hqt : q ≠ t := by
          intro hqe
          rw [hqe, htS] at hqsuf
          cases hqsuf
        rw [getVal_setKey_other hqt] at hget
        exact hI.1 q v hqsuf hget
    · intro e he
      rcases setKey_mem (eraseKey_mem he) with he2 | he2
      · exact hI.2.1 e he2
      · rw [he2]
        exact Or.inr ⟨k, w, hmem0, hsuf, hot, by
          rcases hxprov with hx | ⟨hx1, hx2⟩
          · exact Or.inl hx
          · exact Or.inr ⟨hx1, hx2⟩⟩
    · have h1 : ("object_type" : String) ≠ k := fun h => hknotot h.symm
      have h2 : ("object_type" : String) ≠ t := fun h => htO h.symm
      rw [getVal_eraseKey_other h1, getVal_setKey_other h2]
      exact hI.2.2.1
    · exact nodup_keys_eraseKey k (nodup_keys_setKey t x hI.2.2.2)

theorem Inv_runKeys {m0 : Entries} (htame : tameE m0 = true) :
    ∀ (ks : List String) {m : Entries}, PhaseInv m0 m → PhaseInv m0 (runKeys ks m) := by
  intro ks
  induction ks with
  | nil => intro m hI; exact hI
  | cons k rest ih =>
    intro m hI
    exact ih (Inv_step htame k hI)

theorem absent_step {m0 m : Entries} (htame : tameE m0 = true)
    (k2 : String) {k : String} (hI : PhaseInv m0 m)
    (hsuf : hasSuffix k "OneOfType" = true)
    (habs : getVal m k = none) : getVal (processKey k2 m) k = none := by
  rcases processKey_cases2 k2 m with hc | ⟨w, t, hsuf2, hk2, hot, hbr⟩
  · rw [hc]; exact habs
  · obtain ⟨_, htS, _⟩ := fire_conditions htame hI hsuf2 hk2 hot
    obtain ⟨x, heq⟩ : ∃ x, processKey k2 m = eraseKey k2 (setKey t x m) := by
      rcases hbr with ⟨p, _, heq⟩ | ⟨_, heq⟩
      · exact ⟨p, heq⟩
      · exact ⟨_, heq⟩
    rw [heq]
    by_cases hkk : k = k2
    · subst hkk; exact getVal_eraseKey_self k _
    · rw [getVal_eraseKey_other hkk]
      have hkt : k ≠ t := by
        intro hke
        rw [hke, htS] at hsuf
        cases hsuf
      rw [getVal_setKey_other hkt]
      exact habs


theorem absent_runKeys {m0 : Entries} (htame : tameE m0 = true) :
    ∀ (ks : List String) {m : Entries} {k : String}, PhaseInv m0 m →
    hasSuffix k "OneOfType" = true → getVal m k = none →
    getVal (runKeys ks m) k = none := by
  intro ks
  induction ks with
  | nil => intro m k _ _ habs; exact habs
  | cons k2 rest ih =>
    intro m k hI hsuf habs
    exact ih (Inv_step htame k2 hI) hsuf (absent_step htame k2 hI hsuf habs)

/-- Every visited key whose initial value fires has been erased once the
loop is over. -/
theorem runKeys_kills_fired {m0 : Entries} (htame : tameE m0 = true) :
    ∀ (ks : List String) {m : Entries} {k : String}, PhaseInv m0 m →
    k ∈ ks → hasSuffix k "OneOfType" = true →
    (∀ v0, getVal m0 k = some v0 → fireTarget k v0 ≠ none) →
    getVal (runKeys ks m) k = none := by
  intro ks
  induction ks with
  | nil => intro m k _ hk; cases hk
  | cons k2 rest ih =>
    intro m k hI hk hsuf hfire
    rcases List.mem_cons.mp hk with hk | hk
    · subst hk
      have habs : getVal (processKey k m) k = none := by
        cases hv : getVal m k with
        | none =>
          rcases processKey_cases2 k m with hc | ⟨w, t, _, hk2, _, _⟩
          · rw [hc]; exact hv
          · rw [hv] at hk2; cases hk2
        | some v =>
          have hv0 : getVal m0 k = some v := hI.1 k v hsuf hv
          have hft := hfire v hv0
          cases hft2 : fireTarget k v with
          | none => exact absurd hft2 hft
          | some t =>
            obtain ⟨_, w, hvw, hot⟩ := fireTarget_some_elim hft2
            subst hvw
            cases hp : getVal w t with
            | some p =>
              rw [processKey_fire_payload hsuf hv hot hp]
              exact getVal_eraseKey_self k _
            | none =>
              rw [processKey_fire_strip hsuf hv hot hp]
              exact getVal_eraseKey_self k _
      exact absent_runKeys htame rest (Inv_step htame k hI) hsuf habs
    · exact ih (Inv_step htame k2 hI) hk hsuf hfire

/-- Phase one is the identity when no key of the mapping fires. -/
theorem runKeys_nofire {m : Entries}
    (h : ∀ k v, getVal m k = some v → fireTarget k v = none) :
    ∀ ks, runKeys ks m = m := by
  intro ks
  induction ks with
  | nil => rfl
  | cons k rest ih =>
    show runKeys rest (processKey k m) = m
    rw [processKey_nofire (fun v hv => h k v hv)]
    exact ih

theorem map_entries_id {m : Entries}
    (h : ∀ e ∈ m, transformOneOf e.2 = e.2) :
    m.map (fun e => (e.1, transformOneOf e.2)) = m := by
  induction m with
  | nil => rfl
  | cons e rest ih =>
    rw [List.map_cons, ih (fun e2 he2 => h e2 (List.mem_cons_of_mem _ he2))]
    have := h e (List.mem_cons_self _ _)
    rw [this]

theorem sz_pos (v : JSONValue) : 0 < sz v := by
  cases v <;> simp [sz]

/-- The flattener is the identity on values in which no wrapper fires at
any level (in particular on already-flattened values). -/
theorem transform_noFire_id :
    ∀ (n : Nat) (v : JSONValue), sz v ≤ n → noFire v = true →
    transformOneOf v = v := by
  intro n
  induction n with
  | zero =>
    intro v hv
    have := sz_pos v
    omega
  | succ n ih =>
    intro v hv hnf
    cases v with
    | obj m =>
      rw [noFire] at hnf
      rw [transformOneOf, transformWith_obj]
      have hids : runKeys (keysOf m) m = m := by
        apply runKeys_nofire
        intro k v hget
        exact (noFireE_mem hnf (getVal_mem hget)).1
      rw [keysOf] at hids ⊢
      rw [hids]
      show JSONValue.obj (m.map (fun e => (e.1, transformOneOf e.2))) = .obj m
      rw [map_entries_id]
      intro e he
      obtain ⟨k, v2⟩ := e
      apply ih
      · have hlt : sz v2 < sz (JSONValue.obj m) := szE_of_mem he
        simp [sz] at hlt hv ⊢
        omega
      · exact (noFireE_mem hnf he).2
    | arr l =>
      rw [noFire] at hnf
      rw [transformOneOf, transformWith_arr]
      show JSONValue.arr (l.map transformOneOf) = .arr l
      have hmap : ∀ x ∈ l, transformOneOf x = x := by
        intro x hx
        apply ih
        · have hlt := szL_of_mem hx
          simp [sz] at hlt hv ⊢
          omega
        · exact noFireL_mem hnf hx
      rw [List.map_congr_left hmap]
      simp
    | str s => rw [transformOneOf, transformWith_str]
    | num x => rw [transformOneOf, transformWith_num]
    | bool b => rw [transformOneOf, transformWith_bool]
    | null => rw [transformOneOf, transformWith_null]

theorem prov_tame_wf {m0 : Entries} {q : String} {v : JSONValue}
    (htame : tameE m0 = true) (hwf : wfE m0 = true)
    (hp : EntryProv m0 q v) : tame v = true ∧ wfV v = true := by
  rcases hp with hp | ⟨k, w, hkw, _, _, hbr⟩
  · exact ⟨(tameE_mem htame hp).1, wfE_mem hwf hp⟩
  · have htw : tame (.obj w) = true := (tameE_mem htame hkw).1
    have hww : wfV (.obj w) = true := wfE_mem hwf hkw
    rw [tame] at htw
    rw [wfV, Bool.and_eq_true] at hww
    rcases hbr with hget | ⟨_, hveq⟩
    · have hmem := getVal_mem hget
      exact ⟨(tameE_mem htw hmem).1, wfE_mem hww.2 hmem⟩
    · subst hveq
      constructor
      · rw [tame]
        exact tameE_eraseKey _ htw
      · rw [wfV, Bool.and_eq_true]
        exact ⟨nodupKeysB_eraseKey _ hww.1, wfE_eraseKey _ hww.2⟩

theorem transform_not_str {x : JSONValue} (hxs : ∀ s, x ≠ .str s) :
    ∀ s, transformOneOf x ≠ .str s := by
  cases x with
  | obj m =>
    intro s
    rw [transformOneOf, transformWith_obj]
    exact fun h => JSONValue.noConfusion h
  | arr l =>
    intro s
    rw [transformOneOf, transformWith_arr]
    exact fun h => JSONValue.noConfusion h
  | str s2 => exact absurd rfl (hxs s2)
  | num x =>
    intro s
    rw [transformOneOf, transformWith_num]
    exact fun h => JSONValue.noConfusion h
  | bool b =>
    intro s
    rw [transformOneOf, transformWith_bool]
    exact fun h => JSONValue.noConfusion h
  | null =>
    intro s
    rw [transformOneOf, transformWith_null]
    exact fun h => JSONValue.noConfusion h

/-- Flattening a value keeps a non-firing wrapper entry non-firing: the
level's "object_type" binding is preserved by phase one (tameness rules
out promotions targeting it), and a non-string value cannot become a
string. -/
theorem nonfire_preserved {q : String} {v : JSONValue}
    (htm : tame v = true) (hwf : wfV v = true)
    (hnf : fireTarget q v = none) (hqs : hasSuffix q "OneOfType" = true) :
    fireTarget q (transformOneOf v) = none := by
  cases v with
  | obj w =>
    rw [tame] at htm
    rw [wfV, Bool.and_eq_true] at hwf
    have hnd := nodupKeysB_iff.mp hwf.1
    rw [transformOneOf, transformWith_obj]
    show fireTarget q (.obj ((runKeys (keysOf w) w).map
      (fun e => (e.1, transformOneOf e.2)))) = none
    have hpres : getVal (runKeys (keysOf w) w) "object_type" =
        getVal w "object_type" :=
      (Inv_runKeys htm (keysOf w) (Inv_init hnd)).2.2.1
    rcases fireTarget_none_obj hqs hnf with hot | ⟨x, hot, hxs⟩
    · apply fireTarget_obj_noot
      rw [getVal_mapSnd, hpres, hot]
      rfl
    · apply fireTarget_obj_nonstr (x := transformOneOf x)
      · rw [getVal_mapSnd, hpres, hot]
        rfl
      · exact transform_not_str hxs
  | arr l =>
    rw [transformOneOf, transformWith_arr]
    exact fireTarget_nonobj (fun w hw => JSONValue.noConfusion hw)
  | str s =>
    rw [transformOneOf, transformWith_str]
    exact fireTarget_nonobj (fun w hw => JSONValue.noConfusion hw)
  | num x =>
    rw [transformOneOf, transformWith_num]
    exact fireTarget_nonobj (fun w hw => JSONValue.noConfusion hw)
  | bool b =>
    rw [transformOneOf, transformWith_bool]
    exact fireTarget_nonobj (fun w hw => JSONValue.noConfusion hw)
  | null =>
    rw [transformOneOf, transformWith_null]
    exact fireTarget_nonobj (fun w hw => JSONValue.noConfusion hw)

/-- On tame well-keyed input, the flattener's output contains no firing
wrapper anywhere. -/
theorem noFire_transform :
    ∀ (n : Nat) (v : JSONValue), sz v ≤ n → wfV v = true → tame v = true →
    noFire (transformOneOf v) = true := by
  intro n
  induction n with
  | zero =>
    intro v hv _ _
    have := sz_pos v
    omega
  | succ n ih =>
    intro v hv hwf htm
    cases v with
    | str s => rw [transformOneOf, transformWith_str]; rfl
    | num x => rw [transformOneOf, transformWith_num]; rfl
    | bool b => rw [transformOneOf, transformWith_bool]; rfl
    | null => rw [transformOneOf, transformWith_null]; rfl
    | arr l =>
      rw [wfV] at hwf
      rw [tame] at htm
      rw [transformOneOf, transformWith_arr]
      show noFire (.arr (l.map transformOneOf)) = true
      rw [noFire]
      apply noFireL_of_forall
      intro v2 hv2
      rcases List.mem_map.mp hv2 with ⟨x, hx, hveq⟩
      subst hveq
      apply ih x ?_ (wfL_mem hwf hx) (tameL_mem htm hx)
      have hlt := szL_of_mem hx
      simp [sz] at hlt hv ⊢
      omega
    | obj m0 =>
      rw [wfV, Bool.and_eq_true] at hwf
      rw [tame] at htm
      have hnd : (m0.map Prod.fst).Nodup := nodupKeysB_iff.mp hwf.1
      have hI : PhaseInv m0 (runKeys (keysOf m0) m0) :=
        Inv_runKeys htm (keysOf m0) (Inv_init hnd)
      rw [transformOneOf, transformWith_obj]
      show noFire (.obj ((runKeys (keysOf m0) m0).map
        (fun e => (e.1, transformOneOf e.2)))) = true
      rw [noFire]
      apply noFireE_of_forall
      intro e2 he2
      rcases List.mem_map.mp he2 with ⟨e, he, heq⟩
      subst heq
      obtain ⟨q, v1⟩ := e
      have hprov := hI.2.1 (q, v1) he
      have htamewf := prov_tame_wf htm hwf.2 hprov
      have hszb : sz v1 ≤ n := by
        have hlt := runKeys_sz_lt he
        simp [sz] at hlt hv ⊢
        omega
      constructor
      · show fireTarget q (transformOneOf v1) = none
        cases hqs : hasSuffix q "OneOfType" with
        | false => simp [fireTarget, hqs]
        | true =>
          have hor : (q, v1) ∈ m0 := prov_suffixed htm hprov hqs
          have hget1 : getVal (runKeys (keysOf m0) m0) q = some v1 :=
            getVal_of_mem_nodup he hI.2.2.2
          have hnof : fireTarget q v1 = none := by
            cases hft : fireTarget q v1 with
            | none => rfl
            | some t =>
              exfalso
              have hkill := runKeys_kills_fired htm (keysOf m0)
                (Inv_init hnd) (k := q)
                (List.mem_map.mpr ⟨(q, v1), hor, rfl⟩) hqs ?_
              · rw [hkill] at hget1; cases hget1
              · intro v0 hv0
                have hv01 : v0 = v1 := by
                  rw [getVal_of_mem_nodup hor hnd] at hv0
                  injection hv0 with hv0
                  exact hv0.symm
                subst hv01
                simp [hft]
          exact nonfire_preserved htamewf.1 htamewf.2 hnof hqs
      · exact ih v1 hszb htamewf.2 htamewf.1

/-- A nested wrapper whose inner discriminator is the string
"object_type": the first pass promotes it, manufacturing an
"object_type" key inside the outer (initially malformed, hence
untouched) wrapper; the second pass then fires on the outer wrapper. -/
def c7cexInput : JSONValue :=
  .obj [("xOneOfType", .obj
    [("innerOneOfType", .obj [("object_type", .str "object_type")])])]

/-- C7 counterexample: applying the Union Flattener twice does not
always equal applying it once — the first pass can create an
"object_type" binding that arms a previously malformed wrapper. -/
theorem c7_counterexample :
    transformOneOf (transformOneOf c7cexInput) ≠ transformOneOf c7cexInput := by
  have h1 : transformOneOf c7cexInput =
      .obj [("xOneOfType", .obj [("object_type", .str "object_type")])] := by
    rw [transformOneOf_eval 20 _ (by decide)]
    decide
  have h2 : transformOneOf
      (.obj [("xOneOfType", .obj [("object_type", .str "object_type")])]) =
      .obj [("object_type", .str "object_type")] := by
    rw [transformOneOf_eval 20 _ (by decide)]
    decide
  rw [h1, h2]
  decide

/-- C7 (amended): the Union Flattener is idempotent on every well-keyed
input that is tame — no firing wrapper anywhere in it has a
discriminator that ends in "OneOfType" or equals "object_type".  (On
arbitrary input idempotence fails; see the counterexample.) -/
theorem c7_idempotent_on_tame (v : JSONValue)
    (hwf : wfV v = true) (htm : tame v = true) :
    transformOneOf (transformOneOf v) = transformOneOf v :=
  transform_noFire_id (sz (transformOneOf v)) (transformOneOf v) le_rfl
    (noFire_transform (sz v) v le_rfl hwf htm)

/-- C7 witness: idempotence on the spec's message-variant scenario. -/
theorem c7_idempotent_on_tame_witness :
    (wfV (.obj c1ExampleMap) = true ∧ tame (.obj c1ExampleMap) = true) ∧
    transformOneOf (transformOneOf (.obj c1ExampleMap)) =
      transformOneOf (.obj c1ExampleMap) :=
  ⟨⟨by decide, by decide⟩, c7_idempotent_on_tame _ (by decide) (by decide)⟩

theorem processKey_value_preserved {m : Entries} (k : String)
    (h : ∀ e ∈ m, wfV e.2 = true ∧ amo e.2 = true) :
    ∀ e ∈ processKey k m, wfV e.2 = true ∧ amo e.2 = true := by
  rcases processKey_cases2 k m with hc | ⟨w, t, hsuf, hk, hot, hbr⟩
  · rw [hc]; exact h
  · have hw := h (k, .obj w) (getVal_mem hk)
    obtain ⟨x, hxprop, heq⟩ : ∃ x, (wfV x = true ∧ amo x = true) ∧
        processKey k m = eraseKey k (setKey t x m) := by
      rcases hbr with ⟨p, hp, heq⟩ | ⟨hp, heq⟩
      · refine ⟨p, ⟨?_, ?_⟩, heq⟩
        · have hw1 := hw.1
          rw [wfV, Bool.and_eq_true] at hw1
          exact wfE_mem hw1.2 (getVal_mem hp)
        · have hw2 := hw.2
          rw [amo, Bool.and_eq_true] at hw2
          exact amoE_mem hw2.2 (getVal_mem hp)
      · refine ⟨.obj (eraseKey "object_type" w), ⟨?_, ?_⟩, heq⟩
        · have hw1 := hw.1
          rw [wfV, Bool.and_eq_true] at hw1
          rw [wfV, Bool.and_eq_true]
          exact ⟨nodupKeysB_eraseKey _ hw1.1, wfE_eraseKey _ hw1.2⟩
        · have hw2 := hw.2
          rw [amo, Bool.and_eq_true] at hw2
          rw [amo, Bool.and_eq_true]
          refine ⟨?_, amoE_eraseKey _ hw2.2⟩
          have h1 := of_decide_eq_true hw2.1
          exact decide_eq_true (le_trans (countSuffixed_eraseKey_le _ _) h1)
    rw [heq]
    intro e he
    rcases setKey_mem (eraseKey_mem he) with he2 | he2
    · exact h e he2
    · rw [he2]; exact hxprop

theorem runKeys_value_preserved : ∀ (σ : List String) {m : Entries},
    (∀ e ∈ m, wfV e.2 = true ∧ amo e.2 = true) →
    ∀ e ∈ runKeys σ m, wfV e.2 = true ∧ amo e.2 = true := by
  intro σ
  induction σ with
  | nil => intro m h; exact h
  | cons k rest ih =>
    intro m h
    exact ih (processKey_value_preserved k h)

theorem runKeys_append (l1 l2 : List String) (m : Entries) :
    runKeys (l1 ++ l2) m = runKeys l2 (runKeys l1 m) := by
  simp [runKeys, List.foldl_append]

theorem runKeys_nonsuffix : ∀ (σ : List String) (m : Entries),
    (∀ k ∈ σ, hasSuffix k "OneOfType" = false) → runKeys σ m = m := by
  intro σ
  induction σ with
  | nil => intro m _; rfl
  | cons k rest ih =>
    intro m h
    show runKeys rest (processKey k m) = m
    rw [processKey_nonsuffix m (h k (List.mem_cons_self _ _))]
    exact ih m (fun k2 hk2 => h k2 (List.mem_cons_of_mem _ hk2))

-- Hereditary predicate: `calm` states that no firing wrapper anywhere
-- has a discriminator string that itself ends in "OneOfType" — so no
-- substitution ever creates a new wrapper key, and whether the loop
-- goes on to produce an entry it created cannot matter.

mutual

def calm : JSONValue → Bool
  | .obj m => calmE m
  | .arr l => calmL l
  | _ => true

def calmE : Entries → Bool
  | [] => true
  | (k, v) :: rest =>
    (match fireTarget k v with
     | some t => !hasSuffix t "OneOfType"
     | none => true) && calm v && calmE rest

def calmL : List JSONValue → Bool
  | [] => true
  | v :: rest => calm v && calmL rest

end

theorem calmE_mem : ∀ {m : Entries} {k : String} {v : JSONValue},
    calmE m = true → (k, v) ∈ m →
    calm v = true ∧
    (∀ t, fireTarget k v = some t → hasSuffix t "OneOfType" = false) := by
  intro m
  induction m with
  | nil => intro k v _ h; cases h
  | cons e rest ih =>
    intro k v hc hmem
    cases e with
    | mk k2 v2 =>
      rw [calmE] at hc
      simp only [Bool.and_eq_true] at hc
      rcases List.mem_cons.mp hmem with h | h
      · have hk : k2 = k := congrArg Prod.fst h.symm
        have hv : v2 = v := congrArg Prod.snd h.symm
        subst hk; subst hv
        refine ⟨hc.1.2, ?_⟩
        intro t hft
        rw [hft] at hc
        have := hc.1.1
        simp at this
        exact this
      · exact ih hc.2 h

theorem calmL_mem {l : List JSONValue} {v : JSONValue}
    (h : calmL l = true) (hm : v ∈ l) : calm v = true := by
  induction l with
  | nil => cases hm
  | cons x rest ih =>
    rw [calmL, Bool.and_eq_true] at h
    rcases List.mem_cons.mp hm with hm | hm
    · subst hm; exact h.1
    · exact ih h.2 hm

theorem calmE_eraseKey (q : String) {w : Entries}
    (h : calmE w = true) : calmE (eraseKey q w) = true := by
  induction w with
  | nil => rfl
  | cons e rest ih =>
    cases e with
    | mk k v =>
      rw [calmE, Bool.and_eq_true, Bool.and_eq_true] at h
      by_cases hk : k = q
      · rw [eraseKey_cons_self hk]
        exact ih h.2
      · rw [eraseKey_cons_ne hk, calmE, Bool.and_eq_true, Bool.and_eq_true]
        exact ⟨h.1, ih h.2⟩

theorem getVal_none_of_not_mem {m : Entries} {k : String}
    (h : k ∉ m.map Prod.fst) : getVal m k = none := by
  induction m with
  | nil => rfl
  | cons e rest ih =>
    cases e with
    | mk k2 v =>
      rw [List.map_cons] at h
      have hk : ¬ k2 = k := fun hke =>
        h (hke ▸ List.mem_cons_self k2 (rest.map Prod.fst))
      rw [getVal, if_neg hk]
      exact ih (fun hc => h (List.mem_cons_of_mem _ hc))

/-- Visiting a key that is absent from the current mapping is a no-op:
the Go loop body starts from the entry's value, which does not exist. -/
theorem processKey_absent {m : Entries} {k : String}
    (h : getVal m k = none) : processKey k m = m := by
  rcases processKey_cases2 k m with hc | ⟨w, t, _, hk, _, _⟩
  · exact hc
  · rw [h] at hk; cases hk

theorem runKeys_id_of_noop {m : Entries}
    (h : ∀ k, processKey k m = m) : ∀ σ, runKeys σ m = m := by
  intro σ
  induction σ with
  | nil => rfl
  | cons k rest ih =>
    show runKeys rest (processKey k m) = m
    rw [h k]
    exact ih

theorem processKey_all_noop {m : Entries}
    (h : ∀ k, hasSuffix k "OneOfType" = true → getVal m k = none) :
    ∀ k, processKey k m = m := by
  intro k
  cases hks : hasSuffix k "OneOfType"
  · exact processKey_nonsuffix m hks
  · exact processKey_absent (h k hks)

/-- Once the unique suffixed key has been processed, every further visit
— of remaining initial keys, of the created entry, or of any absent key
— is a no-op: the only suffixed key left (if any) no longer fires. -/
theorem allNoop_after {m : Entries} {k0 : String}
    (honly : ∀ k, hasSuffix k "OneOfType" = true → k ≠ k0 → getVal m k = none)
    (htgt : ∀ w t, getVal m k0 = some (.obj w) →
      getVal w "object_type" = some (.str t) →
      hasSuffix t "OneOfType" = false) :
    ∀ k, processKey k (processKey k0 m) = processKey k0 m := by
  rcases processKey_cases2 k0 m with heq | ⟨w, t, hsuf0, hget0, hot0, hbr⟩
  · rw [heq]
    intro k
    cases hks : hasSuffix k "OneOfType"
    · exact processKey_nonsuffix m hks
    · by_cases hk : k = k0
      · subst hk; exact heq
      · exact processKey_absent (honly k hks hk)
  · have htS := htgt w t hget0 hot0
    obtain ⟨x, heq⟩ : ∃ x, processKey k0 m = eraseKey k0 (setKey t x m) := by
      rcases hbr with ⟨p, _, heq⟩ | ⟨_, heq⟩
      · exact ⟨p, heq⟩
      · exact ⟨_, heq⟩
    rw [heq]
    intro k
    cases hks : hasSuffix k "OneOfType"
    · exact processKey_nonsuffix _ hks
    · apply processKey_absent
      by_cases hk : k = k0
      · subst hk
        exact getVal_eraseKey_self _ _
      · rw [getVal_eraseKey_other hk]
        have hkt : k ≠ t := by
          intro hke
          rw [hke, htS] at hks
          cases hks
        rw [getVal_setKey_other hkt]
        exact honly k hks hk

/-- Any schedule containing the unique suffixed key reduces to the
single substitution at that key: visits before it are no-ops (the other
keys are non-suffixed or absent), and so is everything after it. -/
theorem runKeys_covering {m : Entries} {k0 : String}
    (honly : ∀ k, hasSuffix k "OneOfType" = true → k ≠ k0 → getVal m k = none)
    (htgt : ∀ w t, getVal m k0 = some (.obj w) →
      getVal w "object_type" = some (.str t) →
      hasSuffix t "OneOfType" = false) :
    ∀ σ, k0 ∈ σ → runKeys σ m = processKey k0 m := by
  intro σ
  induction σ with
  | nil => intro h; cases h
  | cons k rest ih =>
    intro hk0
    by_cases hk : k = k0
    · subst hk
      show runKeys rest (processKey k m) = processKey k m
      exact runKeys_id_of_noop (allNoop_after honly htgt) rest
    · have hk0r : k0 ∈ rest := by
        rcases List.mem_cons.mp hk0 with h | h
        · exact absurd h.symm hk
        · exact h
      show runKeys rest (processKey k m) = processKey k0 m
      have hnk : processKey k m = m := by
        cases hks : hasSuffix k "OneOfType"
        · exact processKey_nonsuffix m hks
        · exact processKey_absent (honly k hks hk)
      rw [hnk]
      exact ih hk0r

/-- With at most one "OneOfType"-suffixed key in the mapping and no
firing discriminator itself suffixed, any two schedules covering the
keys present at loop start — each may additionally list created entries
or absent keys, which are no-ops — produce the same result. -/
theorem runKeys_covering_eq {m : Entries} {s1 s2 : List String}
    (h1 : ∀ k ∈ m.map Prod.fst, k ∈ s1)
    (h2 : ∀ k ∈ m.map Prod.fst, k ∈ s2)
    (hnd : (m.map Prod.fst).Nodup)
    (hamo : countSuffixed (m.map Prod.fst) ≤ 1)
    (hcalm : calmE m = true) :
    runKeys s1 m = runKeys s2 m := by
  by_cases hex : ∃ k0, k0 ∈ m.map Prod.fst ∧ hasSuffix k0 "OneOfType" = true
  · obtain ⟨k0, hk0m, hk0s⟩ := hex
    have huniq : ∀ k, k ∈ m.map Prod.fst → hasSuffix k "OneOfType" = true →
        k = k0 := by
      intro k hk hks
      by_contra hne
      have hkf : k ∈ (m.map Prod.fst).filter
          (fun k => hasSuffix k "OneOfType") :=
        List.mem_filter.mpr ⟨hk, hks⟩
      have hk0f : k0 ∈ (m.map Prod.fst).filter
          (fun k => hasSuffix k "OneOfType") :=
        List.mem_filter.mpr ⟨hk0m, hk0s⟩
      obtain ⟨a, b, hab⟩ := List.append_of_mem hkf
      unfold countSuffixed at hamo
      rw [hab] at hamo hk0f
      have hlen : a.length + b.length + 1 ≤ 1 := by
        simp at hamo
        omega
      have ha : a = [] := List.length_eq_zero.mp (by omega)
      have hb : b = [] := List.length_eq_zero.mp (by omega)
      rw [ha, hb] at hk0f
      simp at hk0f
      exact hne hk0f.symm
    have honly : ∀ k, hasSuffix k "OneOfType" = true → k ≠ k0 →
        getVal m k = none := by
      intro k hks hkne
      apply getVal_none_of_not_mem
      intro hkm
      exact hkne (huniq k hkm hks)
    have htgt : ∀ w t, getVal m k0 = some (.obj w) →
        getVal w "object_type" = some (.str t) →
        hasSuffix t "OneOfType" = false := by
      intro w t hget hot
      exact (calmE_mem hcalm (getVal_mem hget)).2 t
        (fireTarget_of_fire hk0s hot)
    rw [runKeys_covering honly htgt s1 (h1 k0 hk0m),
        runKeys_covering honly htgt s2 (h2 k0 hk0m)]
  · push_neg at hex
    have hnoop : ∀ k, processKey k m = m := by
      apply processKey_all_noop
      intro k hks
      apply getVal_none_of_not_mem
      intro hkm
      exact absurd hks (hex k hkm)
    rw [runKeys_id_of_noop hnoop s1, runKeys_id_of_noop hnoop s2]

theorem processKey_value_calm {m : Entries} (k : String)
    (h : ∀ e ∈ m, calm e.2 = true) :
    ∀ e ∈ processKey k m, calm e.2 = true := by
  rcases processKey_cases2 k m with hc | ⟨w, t, hsuf, hk, hot, hbr⟩
  · rw [hc]; exact h
  · have hw := h (k, .obj w) (getVal_mem hk)
    rw [calm] at hw
    obtain ⟨x, hx, heq⟩ : ∃ x, calm x = true ∧
        processKey k m = eraseKey k (setKey t x m) := by
      rcases hbr with ⟨p, hp, heq⟩ | ⟨hp, heq⟩
      · exact ⟨p, (calmE_mem hw (getVal_mem hp)).1, heq⟩
      · refine ⟨.obj (eraseKey "object_type" w), ?_, heq⟩
        rw [calm]
        exact calmE_eraseKey _ hw
    rw [heq]
    intro e he
    rcases setKey_mem (eraseKey_mem he) with he2 | he2
    · exact h e he2
    · rw [he2]; exact hx

theorem runKeys_value_calm : ∀ (σ : List String) {m : Entries},
    (∀ e ∈ m, calm e.2 = true) → ∀ e ∈ runKeys σ m, calm e.2 = true := by
  intro σ
  induction σ with
  | nil => intro m h; exact h
  | cons k rest ih =>
    intro m h
    exact ih (processKey_value_calm k h)

theorem c8core :
    ∀ (n : Nat) (v : JSONValue) (pick1 pick2 : Entries → List String),
    (∀ m, ∀ k ∈ m.map Prod.fst, k ∈ pick1 m) →
    (∀ m, ∀ k ∈ m.map Prod.fst, k ∈ pick2 m) →
    sz v ≤ n → wfV v = true → amo v = true → calm v = true →
    transformWith pick1 v = transformWith pick2 v := by
  intro n
  induction n with
  | zero =>
    intro v _ _ _ _ hv _ _ _
    have := sz_pos v
    omega
  | succ n ih =>
    intro v pick1 pick2 hp1 hp2 hv hwf ha hc
    cases v with
    | str s => rw [transformWith_str, transformWith_str]
    | num x => rw [transformWith_num, transformWith_num]
    | bool b => rw [transformWith_bool, transformWith_bool]
    | null => rw [transformWith_null, transformWith_null]
    | arr l =>
      rw [transformWith_arr, transformWith_arr]
      rw [wfV] at hwf
      rw [amo] at ha
      rw [calm] at hc
      congr 1
      apply List.map_congr_left
      intro x hx
      apply ih x pick1 pick2 hp1 hp2 ?_ (wfL_mem hwf hx) (amoL_mem ha hx)
        (calmL_mem hc hx)
      have hlt := szL_of_mem hx
      simp [sz] at hlt hv ⊢
      omega
    | obj m =>
      rw [wfV, Bool.and_eq_true] at hwf
      rw [amo, Bool.and_eq_true] at ha
      rw [calm] at hc
      have hnd := nodupKeysB_iff.mp hwf.1
      have hcs := of_decide_eq_true ha.1
      have hm1 : runKeys (pick1 m) m = runKeys (pick2 m) m :=
        runKeys_covering_eq (hp1 m) (hp2 m) hnd hcs hc
      rw [transformWith_obj, transformWith_obj, hm1]
      congr 1
      apply List.map_congr_left
      intro e he
      have hval : wfV e.2 = true ∧ amo e.2 = true := by
        apply runKeys_value_preserved (pick2 m) ?_ e he
        intro e2 he2
        obtain ⟨k2, v2⟩ := e2
        exact ⟨wfE_mem hwf.2 he2, amoE_mem ha.2 he2⟩
      have hcalm2 : calm e.2 = true := by
        apply runKeys_value_calm (pick2 m) ?_ e he
        intro e2 he2
        obtain ⟨k2, v2⟩ := e2
        exact (calmE_mem hc he2).1
      have hsz : sz e.2 ≤ n := by
        have hlt := runKeys_sz_lt he
        simp [sz] at hlt hv ⊢
        omega
      rw [ih e.2 pick1 pick2 hp1 hp2 hsz hval.1 hval.2 hcalm2]

/-- The reversed schedule: visit the keys present at loop start in
reverse entry order — equally legal for a Go `range`. -/
def pickRev (m : Entries) : List String :=
  (m.map Prod.fst).reverse

/-- A produce-run schedule: after the keys present at loop start, also
visit the key "bOneOfType" — the Go specification allows a `range` to
produce an entry created during the iteration. -/
def pickProduce (m : Entries) : List String :=
  m.map Prod.fst ++ ["bOneOfType"]

/-- Two sibling wrappers promoting to the same discriminator key "t":
whichever is processed last wins, so visit order changes the result. -/
def c8cexInput : JSONValue :=
  .obj [("aOneOfType", .obj [("object_type", .str "t"), ("t", .str "1")]),
        ("bOneOfType", .obj [("object_type", .str "t"), ("t", .str "2")])]

/-- A single wrapper whose discriminator itself ends in "OneOfType":
its promotion creates a new wrapper entry during the loop, which a Go
`range` may (produce-run) or may not (skip-run) go on to visit. -/
def c8chainInput : JSONValue :=
  .obj [("aOneOfType", .obj
    [("object_type", .str "bOneOfType"),
     ("bOneOfType", .obj [("object_type", .str "c"), ("x", .num 1)])])]

/-- C8 counterexample: the Union Flattener's result depends on the
schedule.  Part one: two sibling wrappers with the same discriminator —
forward and reverse orders over the initial keys disagree.  Part two: a
mapping with a single wrapper (well-keyed, at most one wrapper per
mapping) whose discriminator itself ends in "OneOfType" — a skip-run
leaves the created wrapper entry in place while a produce-run flattens
it too, so restricting attention to at most one wrapper per mapping is
not enough for order-independence. -/
theorem c8_counterexample :
    (∃ pick1 pick2 : Entries → List String,
      (∀ m, ∀ k ∈ m.map Prod.fst, k ∈ pick1 m) ∧
      (∀ m, ∀ k ∈ m.map Prod.fst, k ∈ pick2 m) ∧
      transformWith pick1 c8cexInput ≠ transformWith pick2 c8cexInput) ∧
    (wfV c8chainInput = true ∧ amo c8chainInput = true ∧
     ∃ pick1 pick2 : Entries → List String,
      (∀ m, ∀ k ∈ m.map Prod.fst, k ∈ pick1 m) ∧
      (∀ m, ∀ k ∈ m.map Prod.fst, k ∈ pick2 m) ∧
      transformWith pick1 c8chainInput ≠ transformWith pick2 c8chainInput) := by
  constructor
  · refine ⟨keysOf, pickRev, fun m k hk => hk,
      fun m k hk => List.mem_reverse.mpr hk, ?_⟩
    rw [transformWith_eq_fuel keysOf 20 _ (by decide),
        transformWith_eq_fuel pickRev 20 _ (by decide)]
    decide
  · refine ⟨by decide, by decide, keysOf, pickProduce, fun m k hk => hk,
      fun m k hk => List.mem_append_left _ hk, ?_⟩
    rw [transformWith_eq_fuel keysOf 20 _ (by decide),
        transformWith_eq_fuel pickProduce 20 _ (by decide)]
    decide

/-- C8 (amended): the result of the Union Flattener is independent of
the visit schedule — any schedule function that at each mapping covers
the keys present at loop start and may additionally list entries the
loop creates, or absent keys (no-ops) — for every well-keyed input in
which every mapping holds at most one key ending in "OneOfType" and no
firing discriminator itself ends in "OneOfType".  Under these conditions
at most one substitution fires per mapping, it never creates a new
wrapper key, and every other visit is a no-op.  Outside them
order-independence fails (see the counterexample): sibling substitutions
can overwrite each other's target, and a substitution can create a new
wrapper entry that one run produces and another skips. -/
theorem c8_order_invariant (pick1 pick2 : Entries → List String)
    (hp1 : ∀ m, ∀ k ∈ m.map Prod.fst, k ∈ pick1 m)
    (hp2 : ∀ m, ∀ k ∈ m.map Prod.fst, k ∈ pick2 m)
    (v : JSONValue) (hwf : wfV v = true) (ha : amo v = true)
    (hc : calm v = true) :
    transformWith pick1 v = transformWith pick2 v :=
  c8core (sz v) v pick1 pick2 hp1 hp2 le_rfl hwf ha hc

/-- C8 witness: the forward schedule and a schedule that additionally
lists a created-entry visit agree on the spec's primitive-variant
scenario. -/
theorem c8_order_invariant_witness :
    ((∀ m : Entries, ∀ k ∈ m.map Prod.fst, k ∈ keysOf m) ∧
     (∀ m : Entries, ∀ k ∈ m.map Prod.fst, k ∈ pickProduce m) ∧
     wfV (.obj c2ExampleMap) = true ∧ amo (.obj c2ExampleMap) = true ∧
     calm (.obj c2ExampleMap) = true) ∧
    transformWith keysOf (.obj c2ExampleMap) =
      transformWith pickProduce (.obj c2ExampleMap) :=
  ⟨⟨fun m k hk => hk, fun m k hk => List.mem_append_left _ hk,
    by decide, by decide, by decide⟩,
   c8_order_invariant keysOf pickProduce (fun m k hk => hk)
     (fun m k hk => List.mem_append_left _ hk) _
     (by decide) (by decide) (by decide)⟩
